import Mathlib

/-!
# Arduino_Clock: calendar conversion and software clock

A shallow embedding of `src/Clock.cpp`.  Machine integers are natural numbers
or integers with the wrap-around of the C type written out: `u32` is the
conversion to `uint32_t`, `u8` the conversion to `uint8_t`.
-/

namespace ArduinoClock

/-! ## Machine integers -/

/-- Conversion of a mathematical integer to `uint32_t` (reduction modulo 2^32). -/
def u32 (x : Int) : Nat := (x % 4294967296).toNat

/-- Conversion of a natural number to `uint8_t` (reduction modulo 2^8). -/
def u8 (x : Nat) : Nat := x % 256

/-! ## Declarations of `Clock.h` -/

/-- Modelled from the spec: the macro `SECS_PER_MIN` of `Clock.h` (not among the
sources); seconds are reduced to minutes by division by 60. -/
def SECS_PER_MIN : Nat := 60

/-- Modelled from the spec: the macro `SECS_PER_HOUR` of `Clock.h` (not among the
sources); the spec composes `Hour×3600`. -/
def SECS_PER_HOUR : Nat := 3600

/-- Modelled from the spec: the macro `SECS_PER_DAY` of `Clock.h` (not among the
sources); the spec composes `(Day−1)×86400`. -/
def SECS_PER_DAY : Nat := 86400

/-- Modelled from the spec: the type `tmElements_t` of `Clock.h` (not among the
sources), the BrokenDownTime of the data model.  Every field is a `uint8_t`;
`Year` is the offset from 1970, `Wday` has 1 = Sunday. -/
structure tmElements_t where
  Second : Nat
  Minute : Nat
  Hour : Nat
  Wday : Nat
  Day : Nat
  Month : Nat
  Year : Nat
  deriving DecidableEq, Repr

/-! ## Calendar conversion (`Clock.cpp`, lines 141-228) -/

/-- The macro `LEAP_YEAR(Y)`; the argument is the offset from 1970. -/
def LEAP_YEAR (Y : Nat) : Bool :=
  decide (1970 + Y > 0) && ((1970 + Y) % 4 == 0) &&
    (((1970 + Y) % 100 != 0) || ((1970 + Y) % 400 == 0))

/-- The table `monthDays`; it starts from index 0. -/
def monthDays : List Nat := [31, 28, 31, 30, 31, 30, 31, 31, 30, 31, 30, 31]

/-- The year search of `breakTime`:
`while((unsigned)(days += (LEAP_YEAR(year) ? 366 : 365)) <= time) year++;`.
`uw` is the width in bits of `unsigned`, `year` is a `uint8_t` and `days` an
`unsigned long`.  Each evaluation of the loop condition costs one unit of fuel;
the result is `none` when the fuel runs out, and otherwise the final `year`, the
final `days` and the number of times the loop body ran. -/
def yearLoop (uw time : Nat) : Nat → Nat → Nat → Nat → Option (Nat × Nat × Nat)
  | 0, _, _, _ => none
  | fuel + 1, year, days, iters =>
    let days1 := u32 ((days : Int) + (if LEAP_YEAR year then 366 else 365))
    if days1 % 2 ^ uw ≤ time then
      yearLoop uw time fuel (u8 (year + 1)) days1 (iters + 1)
    else
      some (year, days1, iters)

/-- The month search of `breakTime`, `for (month=0; month<12; month++) { ... }`.
The first argument is the number of values of `month` still to visit, so the
loop is entered as `monthLoop year 12 0 time`.  The result is the final `month`
and `time`; `month` is 12 exactly when the loop ended without `break`. -/
def monthLoop (year : Nat) : Nat → Nat → Nat → Nat × Nat
  | 0, month, time => (month, time)
  | n + 1, month, time =>
    let monthLength :=
      if month = 1 then (if LEAP_YEAR year then 29 else 28) else u8 (monthDays.getD month 0)
    if time ≥ monthLength then
      monthLoop year n (u8 (month + 1)) (u32 ((time : Int) - monthLength))
    else
      (month, time)

/-- The two searches of `breakTime` (lines 165-194) on the day count `time`: the
year loop, the reduction of `days` and `time` to the day of the year, and the
month loop.  The result is the final `year`, `month` and `time`; it is `none`
when the year loop runs out of `fuel`. -/
def breakTimeSearch (fuel uw time : Nat) : Option (Nat × Nat × Nat) :=
  match yearLoop uw time fuel 0 0 0 with
  | none => none
  | some (year, days, _) =>
    let days := u32 ((days : Int) - (if LEAP_YEAR year then 366 else 365))
    let time := u32 ((time : Int) - days)
    let r := monthLoop year 12 0 time
    some (year, r.1, r.2)

/-- The function `breakTime(timeInput, tm)`, returning the `tm` it fills in.
`fuel` bounds the evaluations of the year loop's condition and `uw` is the
width of `unsigned`. -/
def breakTime (fuel uw timeInput : Nat) : Option tmElements_t :=
  let time := u32 timeInput
  let Second := u8 (time % 60)
  let time := time / 60
  let Minute := u8 (time % 60)
  let time := time / 60
  let Hour := u8 (time % 24)
  let time := time / 24
  let Wday := u8 (((time + 4) % 7) + 1)
  match breakTimeSearch fuel uw time with
  | none => none
  | some (year, month, time) =>
    some { Second := Second, Minute := Minute, Hour := Hour, Wday := Wday,
           Day := u8 (time + 1), Month := u8 (month + 1), Year := year }

/-- The first loop of `makeTime`: `for (i = 0; i < tm.Year; i++)`, adding one
day of seconds for every leap year before `tm.Year`. -/
def leapSecondsLoop (Year : Nat) (seconds : Nat) : Nat :=
  (List.range Year).foldl
    (fun s i => if LEAP_YEAR i then u32 ((s : Int) + SECS_PER_DAY) else s) seconds

/-- The second loop of `makeTime`: `for (i = 1; i < tm.Month; i++)`, adding the
seconds of the months before `tm.Month`.  An index past the end of `monthDays`
(only for `Month` above 13) is read as 0. -/
def monthSecondsLoop (Year Month : Nat) (seconds : Nat) : Nat :=
  (List.range' 1 (Month - 1)).foldl
    (fun s i =>
      if i = 2 ∧ LEAP_YEAR Year = true then u32 ((s : Int) + SECS_PER_DAY * 29)
      else u32 ((s : Int) + SECS_PER_DAY * monthDays.getD (i - 1) 0))
    seconds

/-- The function `makeTime(tm)`; `seconds` is a `uint32_t`. -/
def makeTime (tm : tmElements_t) : Nat :=
  let seconds := u32 ((tm.Year : Int) * (SECS_PER_DAY * 365))
  let seconds := leapSecondsLoop tm.Year seconds
  let seconds := monthSecondsLoop tm.Year tm.Month seconds
  let seconds := u32 ((seconds : Int) + ((tm.Day : Int) - 1) * SECS_PER_DAY)
  let seconds := u32 ((seconds : Int) + (tm.Hour : Int) * SECS_PER_HOUR)
  let seconds := u32 ((seconds : Int) + (tm.Minute : Int) * SECS_PER_MIN)
  let seconds := u32 ((seconds : Int) + tm.Second)
  seconds

/-! ## Software clock (`Clock.cpp`, lines 230-337) -/

/-- Modelled from the spec: the enumeration `timeStatus_t` of `Clock.h` (not among
the sources); the data model lists the status values NotSet, Set and NeedsSync. -/
inductive timeStatus_t where
  | timeNotSet
  | timeNeedsSync
  | timeSet
  deriving DecidableEq, Repr

/-- Modelled from the spec: the type `struct timems` of `Clock.h` (not among the
sources), a captured (seconds, millis) instant together with the raw tick
reading.  `tv_sec` and `raw_millis` hold 32-bit unsigned values and `tv_msec`
an unsigned count of milliseconds. -/
structure timems where
  tv_sec : Nat
  tv_msec : Nat
  raw_millis : Nat
  deriving DecidableEq, Repr

/-- The file-level variables of the software clock: `sysTime`, `prevMillis`,
`nextSyncTime` and `NextClockAdjustS` are `uint32_t`, `ClockAdjustStep` is a
`uint16_t` and `AddRemoveMS` an `int8_t`. -/
structure ClockState where
  sysTime : Nat
  prevMillis : Nat
  nextSyncTime : Nat
  Status : timeStatus_t
  NextClockAdjustS : Nat
  ClockAdjustStep : Nat
  AddRemoveMS : Int
  deriving DecidableEq, Repr

/-- The initial values of the file-level variables. -/
def initialState : ClockState :=
  { sysTime := 0, prevMillis := 0, nextSyncTime := 0, Status := timeStatus_t.timeNotSet,
    NextClockAdjustS := 0, ClockAdjustStep := 0, AddRemoveMS := 0 }

/-- The function `now_ms(tms)`.  `millis` is the value that the call of
`millis()` returns; the result is the instant written to `*tms` and the clock
state after the call. -/
def now_ms (st : ClockState) (millis : Nat) : timems × ClockState :=
  let nowMillis := u32 millis
  let milliSecondsPassed := u32 ((nowMillis : Int) - st.prevMillis)
  let secondsPassed := milliSecondsPassed / 1000
  let folded : Nat × Nat × Nat :=
    if secondsPassed > 1 then
      let secondsPassed1 := u32 ((secondsPassed : Int) - 1)
      (u32 ((st.sysTime : Int) + secondsPassed1),
       u32 ((st.prevMillis : Int) + u32 ((secondsPassed1 : Int) * 1000)),
       1)
    else
      (st.sysTime, st.prevMillis, secondsPassed)
  let sysTime := folded.1
  let prevMillis := folded.2.1
  let secondsPassed := folded.2.2
  let tms : timems :=
    { tv_sec := u32 ((sysTime : Int) + secondsPassed),
      tv_msec := milliSecondsPassed % 1000,
      raw_millis := nowMillis }
  if st.AddRemoveMS ≠ 0 ∧ sysTime ≥ st.NextClockAdjustS then
    (tms, { st with sysTime := sysTime,
                    prevMillis := u32 ((prevMillis : Int) + st.AddRemoveMS),
                    NextClockAdjustS := u32 ((st.NextClockAdjustS : Int) + st.ClockAdjustStep) })
  else
    (tms, { st with sysTime := sysTime, prevMillis := prevMillis })

/-- The function `setTime_ms(tms)`; `millis` is the value that the call of
`millis()` returns. -/
def setTime_ms (st : ClockState) (millis : Nat) (tms : timems) : ClockState :=
  let prevMillis := u32 ((u32 millis : Int) - tms.tv_msec)
  let sysTime := u32 tms.tv_sec
  { st with prevMillis := prevMillis, sysTime := sysTime, Status := timeStatus_t.timeSet,
            NextClockAdjustS := u32 ((sysTime : Int) + st.ClockAdjustStep) }

/-- The function `adjustTime_ms(ms)`; `ms` is an `int16_t`, and `/` and `%` on
signed operands truncate towards zero. -/
def adjustTime_ms (st : ClockState) (ms : Int) : ClockState :=
  let seconds := Int.tdiv ms 1000
  { st with sysTime := u32 ((st.sysTime : Int) + seconds),
            prevMillis := u32 ((st.prevMillis : Int) + Int.tmod ms 1000) }

/-- The function `adjustClockSpeed(StepSeconds, new_AddRemoveMS)` with a
`uint16_t` and an `int8_t` argument; the result is the returned code and the
clock state after the call. -/
def adjustClockSpeed (st : ClockState) (StepSeconds : Nat) (new_AddRemoveMS : Int) :
    Int × ClockState :=
  if st.Status ≠ timeStatus_t.timeSet then (-2, st)
  else if new_AddRemoveMS ≠ 0 ∧ new_AddRemoveMS ≠ -1 ∧ new_AddRemoveMS ≠ 1 then (-1, st)
  else if StepSeconds < 2 then (-1, st)
  else if StepSeconds > 1000 then (-1, st)
  else
    (0, { st with ClockAdjustStep := StepSeconds,
                  NextClockAdjustS := u32 ((st.sysTime : Int) + StepSeconds),
                  AddRemoveMS := new_AddRemoveMS })

/-- The conversion of a floating-point value to `uint16_t`, as in the assignments
to `StepSeconds` in `adjustClockSpeed_ppm`.  The `float` and `double` values
are taken as exact rational numbers; the conversion truncates, and a value
outside the range of `uint16_t`, for which C leaves the result undefined, is
reduced modulo 2^16. -/
def toUint16 (x : ℚ) : Nat := (⌊x⌋ % 65536).toNat

/-- The function `adjustClockSpeed_ppm(clock_error)`.  The `float` argument and
the `double` arithmetic on it are taken as exact rational numbers. -/
def adjustClockSpeed_ppm (st : ClockState) (clock_error : ℚ) : Int × ClockState :=
  if clock_error > 0 then
    let posOrNeg : Int := -1
    let StepSeconds := toUint16 ((1 / 1000) / clock_error + 1 / 2)
    let StepSeconds := if StepSeconds > 1000 then 1000 else StepSeconds
    adjustClockSpeed st StepSeconds posOrNeg
  else if clock_error = 0 then
    adjustClockSpeed st 2 0
  else
    let posOrNeg : Int := 1
    let StepSeconds := toUint16 ((-(1 / 1000)) / clock_error + 1 / 2)
    let StepSeconds := if StepSeconds > 1000 then 1000 else StepSeconds
    adjustClockSpeed st StepSeconds posOrNeg

/-- Conversion of a mathematical integer to `int32_t` (two's complement). -/
def i32 (x : Int) : Int := (x + 2147483648) % 4294967296 - 2147483648

/-- The function `ts_interval(start, end)`; the differences are taken at the
32-bit width of `tv_sec` and the result is an `int32_t`. -/
def ts_interval (start finish : timems) : Int :=
  i32 ((u32 ((finish.tv_sec : Int) - start.tv_sec) : Int) * 1000
        + ((finish.tv_msec : Int) - start.tv_msec))

/-- The function `now()`; `millis` is the value that the call of `millis()`
inside `now_ms` returns. -/
def now (st : ClockState) (millis : Nat) : Nat × ClockState :=
  ((now_ms st millis).1.tv_sec, (now_ms st millis).2)

/-- The function `timeStatus()`. -/
def timeStatus (st : ClockState) : timeStatus_t := st.Status

/-! ## Field accessors (`Clock.cpp`, lines 34-135) -/

/-- The file-level variables of the accessors: the cache `tm` of time elements
and `cacheTime`, the time the cache was updated. -/
structure CacheState where
  tm : tmElements_t
  cacheTime : Nat
  deriving DecidableEq, Repr

/-- The initial values of `tm` and `cacheTime`: static storage is zero. -/
def initialCache : CacheState :=
  { tm := { Second := 0, Minute := 0, Hour := 0, Wday := 0, Day := 0, Month := 0, Year := 0 },
    cacheTime := 0 }

/-- The function `refreshCache(t)`; the result is `none` when the year loop of
`breakTime` runs out of `fuel`. -/
def refreshCache (fuel uw : Nat) (c : CacheState) (t : Nat) : Option CacheState :=
  if t ≠ c.cacheTime then
    match breakTime fuel uw t with
    | none => none
    | some tm => some { tm := tm, cacheTime := t }
  else
    some c

/-- Modelled from the spec: the macro `tmYearToCalendar` of `Clock.h` (not among
the sources); the absolute calendar year is 1970 + offset. -/
def tmYearToCalendar (Y : Nat) : Nat := Y + 1970

/-- The function `hour(t)`: the returned value and the cache after the call. -/
def hour (fuel uw : Nat) (c : CacheState) (t : Nat) : Option (Nat × CacheState) :=
  (refreshCache fuel uw c t).map fun c1 => (c1.tm.Hour, c1)

/-- The function `hourFormat12(t)`. -/
def hourFormat12 (fuel uw : Nat) (c : CacheState) (t : Nat) : Option (Nat × CacheState) :=
  (refreshCache fuel uw c t).map fun c1 =>
    (if c1.tm.Hour = 0 then 12
     else if c1.tm.Hour > 12 then c1.tm.Hour - 12
     else c1.tm.Hour, c1)

/-- The function `isPM(t)`, `hour(t) >= 12` as a `uint8_t`. -/
def isPM (fuel uw : Nat) (c : CacheState) (t : Nat) : Option (Nat × CacheState) :=
  (hour fuel uw c t).map fun r => (if r.1 ≥ 12 then 1 else 0, r.2)

/-- The function `isAM(t)`, `!isPM(t)` as a `uint8_t`. -/
def isAM (fuel uw : Nat) (c : CacheState) (t : Nat) : Option (Nat × CacheState) :=
  (isPM fuel uw c t).map fun r => (if r.1 = 0 then 1 else 0, r.2)

/-- The function `minute(t)`. -/
def minute (fuel uw : Nat) (c : CacheState) (t : Nat) : Option (Nat × CacheState) :=
  (refreshCache fuel uw c t).map fun c1 => (c1.tm.Minute, c1)

/-- The function `second(t)`. -/
def second (fuel uw : Nat) (c : CacheState) (t : Nat) : Option (Nat × CacheState) :=
  (refreshCache fuel uw c t).map fun c1 => (c1.tm.Second, c1)

/-- The function `day(t)`. -/
def day (fuel uw : Nat) (c : CacheState) (t : Nat) : Option (Nat × CacheState) :=
  (refreshCache fuel uw c t).map fun c1 => (c1.tm.Day, c1)

/-- The function `weekday(t)`. -/
def weekday (fuel uw : Nat) (c : CacheState) (t : Nat) : Option (Nat × CacheState) :=
  (refreshCache fuel uw c t).map fun c1 => (c1.tm.Wday, c1)

/-- The function `month(t)`. -/
def month (fuel uw : Nat) (c : CacheState) (t : Nat) : Option (Nat × CacheState) :=
  (refreshCache fuel uw c t).map fun c1 => (c1.tm.Month, c1)

/-- The function `year(t)`. -/
def year (fuel uw : Nat) (c : CacheState) (t : Nat) : Option (Nat × CacheState) :=
  (refreshCache fuel uw c t).map fun c1 => (tmYearToCalendar c1.tm.Year, c1)

/-! ## Sequences of calls -/

/-- The accessors of the interface, `get-field(kind, optionalInstant)`. -/
inductive FieldKind where
  | hour
  | hourFormat12
  | isAM
  | isPM
  | minute
  | second
  | day
  | weekday
  | month
  | year
  deriving DecidableEq, Repr

/-- The accessor of kind `k` with an explicit time argument. -/
def getField (fuel uw : Nat) (k : FieldKind) (c : CacheState) (t : Nat) :
    Option (Nat × CacheState) :=
  match k with
  | FieldKind.hour => hour fuel uw c t
  | FieldKind.hourFormat12 => hourFormat12 fuel uw c t
  | FieldKind.isAM => isAM fuel uw c t
  | FieldKind.isPM => isPM fuel uw c t
  | FieldKind.minute => minute fuel uw c t
  | FieldKind.second => second fuel uw c t
  | FieldKind.day => day fuel uw c t
  | FieldKind.weekday => weekday fuel uw c t
  | FieldKind.month => month fuel uw c t
  | FieldKind.year => year fuel uw c t

/-- The whole process state: the variables of the clock and of the accessors. -/
structure World where
  clock : ClockState
  cache : CacheState
  deriving DecidableEq, Repr

/-- The process state at start. -/
def initialWorld : World := { clock := initialState, cache := initialCache }

/-- The accessor of kind `k` without argument, such as `hour()`, which is
`hour(now())`; `millis` is the tick reading inside `now()`. -/
def getFieldNow (fuel uw : Nat) (k : FieldKind) (w : World) (millis : Nat) :
    Option (Nat × World) :=
  (getField fuel uw k w.cache (now w.clock millis).1).map fun r =>
    (r.1, { clock := (now w.clock millis).2, cache := r.2 })

/-- A call of the interface of `Clock.cpp`, with its arguments and, where the
function reads `millis()`, the tick reading it gets. -/
inductive Call where
  | now_ms (millis : Nat)
  | now (millis : Nat)
  | setTime_ms (millis : Nat) (tms : timems)
  | adjustTime_ms (ms : Int)
  | adjustClockSpeed (StepSeconds : Nat) (new_AddRemoveMS : Int)
  | adjustClockSpeed_ppm (clock_error : ℚ)
  | timeStatus
  | fieldAt (k : FieldKind) (t : Nat)
  | fieldNow (k : FieldKind) (millis : Nat)

/-- The process state after a call; `none` when `breakTime` runs out of fuel. -/
def exec (fuel uw : Nat) (w : World) : Call → Option World
  | Call.now_ms millis => some { w with clock := (now_ms w.clock millis).2 }
  | Call.now millis => some { w with clock := (now w.clock millis).2 }
  | Call.setTime_ms millis tms => some { w with clock := setTime_ms w.clock millis tms }
  | Call.adjustTime_ms ms => some { w with clock := adjustTime_ms w.clock ms }
  | Call.adjustClockSpeed s a => some { w with clock := (adjustClockSpeed w.clock s a).2 }
  | Call.adjustClockSpeed_ppm e => some { w with clock := (adjustClockSpeed_ppm w.clock e).2 }
  | Call.timeStatus => some w
  | Call.fieldAt k t => (getField fuel uw k w.cache t).map fun r => { w with cache := r.2 }
  | Call.fieldNow k millis => (getFieldNow fuel uw k w millis).map fun r => r.2

/-- The process state after a sequence of calls. -/
def run (fuel uw : Nat) : World → List Call → Option World
  | w, [] => some w
  | w, c :: cs =>
    match exec fuel uw w c with
    | none => none
    | some w1 => run fuel uw w1 cs

/-! ## Vocabulary of the specification -/

/-- The leap rule of the specification for an absolute calendar year: divisible
by 4 and (not divisible by 100 or divisible by 400). -/
def isLeapYear (Y : Nat) : Bool :=
  Y % 4 == 0 && (Y % 100 != 0 || Y % 400 == 0)

/-- The length of month `Month` (1 = January) in calendar year `Y`: February has
29 days in leap years and 28 otherwise, the other months the `monthDays` entry. -/
def daysInMonth (Y Month : Nat) : Nat :=
  if Month = 2 then (if isLeapYear Y then 29 else 28) else monthDays.getD (Month - 1) 0

/-- The number of days of the year with offset `y` from 1970, as the year loop of
`breakTime` counts them. -/
def yearLength (y : Nat) : Nat := if LEAP_YEAR y then 366 else 365

/-- The number of days from 1970-01-01 to January 1st of the year with offset `y`. -/
def daysBeforeYear : Nat → Nat
  | 0 => 0
  | y + 1 => daysBeforeYear y + yearLength y

/-- The length that the month loop of `breakTime` uses for `month` (0 = January)
in the year with offset `year`. -/
def monthLen (year month : Nat) : Nat :=
  if month = 1 then (if LEAP_YEAR year then 29 else 28) else u8 (monthDays.getD month 0)

/-- The number of days of the year with offset `year` before `month` (0 = January). -/
def daysBeforeMonth (year : Nat) : Nat → Nat
  | 0 => 0
  | m + 1 => daysBeforeMonth year m + monthLen year m

/-- The instant of a broken-down time in the calendar order: the fields `Year`,
`Month`, `Day`, `Hour`, `Minute`, `Second` compared lexicographically with
2106-02-07T06:28:15, the last second that fits in 32 bits. -/
def notAfterLimit (f : tmElements_t) : Prop :=
  f.Year < 136 ∨ (f.Year = 136 ∧ (f.Month < 2 ∨ (f.Month = 2 ∧ (f.Day < 7 ∨ (f.Day = 7 ∧
    (f.Hour < 6 ∨ (f.Hour = 6 ∧ (f.Minute < 28 ∨ (f.Minute = 28 ∧ f.Second ≤ 15)))))))))

/-- The valid broken-down times: `Month` in 1..12, `Day` in 1..(length of the
month in year 1970+`Year`), `Hour` < 24, `Minute` < 60, `Second` < 60. -/
def validFields (f : tmElements_t) : Prop :=
  1 ≤ f.Month ∧ f.Month ≤ 12 ∧ 1 ≤ f.Day ∧ f.Day ≤ daysInMonth (1970 + f.Year) f.Month ∧
    f.Hour < 24 ∧ f.Minute < 60 ∧ f.Second < 60

/-- The instant of a `timems` in milliseconds, `tv_sec*1000 + tv_msec`. -/
def instantMs (t : timems) : Int := (t.tv_sec : Int) * 1000 + t.tv_msec

/-- The query at tick reading `m` reports its seconds without 32-bit overflow:
`sysTime` plus the whole seconds elapsed since the tick sample is below 2^32. -/
def secondsNoOverflow (st : ClockState) (m : Nat) : Prop :=
  st.sysTime + u32 ((u32 m : Int) - st.prevMillis) / 1000 < 2 ^ 32

/-- The value of `sysTime` in `now_ms` after the folding of whole seconds. -/
def foldedSysTime (st : ClockState) (m : Nat) : Nat :=
  if u32 ((u32 m : Int) - st.prevMillis) / 1000 > 1 then
    u32 ((st.sysTime : Int) + u32 ((u32 ((u32 m : Int) - st.prevMillis) / 1000 : Nat) - 1))
  else st.sysTime

/-- The value of `prevMillis` in `now_ms` after the folding of whole seconds. -/
def foldedPrevMillis (st : ClockState) (m : Nat) : Nat :=
  if u32 ((u32 m : Int) - st.prevMillis) / 1000 > 1 then
    u32 ((st.prevMillis : Int)
      + u32 ((u32 ((u32 ((u32 m : Int) - st.prevMillis) / 1000 : Nat) - 1) : Int) * 1000))
  else st.prevMillis

/-- A clock that was set, has its tick sample at 0 and a correction of -1 ms due. -/
def dueMinusOne : ClockState :=
  { sysTime := 0, prevMillis := 0, nextSyncTime := 0, Status := timeStatus_t.timeSet,
    NextClockAdjustS := 0, ClockAdjustStep := 2, AddRemoveMS := -1 }

/-- A clock that was set, has its tick sample at 0 and a correction of +1 ms due. -/
def duePlusOne : ClockState :=
  { sysTime := 0, prevMillis := 0, nextSyncTime := 0, Status := timeStatus_t.timeSet,
    NextClockAdjustS := 0, ClockAdjustStep := 2, AddRemoveMS := 1 }

/-- The calls of `setTime_ms`. -/
def Call.isSetTime : Call → Bool
  | Call.setTime_ms _ _ => true
  | _ => false

/-- The cache agrees with `breakTime`: `tm` is `breakTime(cacheTime)`. -/
def coherent (fuel uw : Nat) (c : CacheState) : Prop :=
  breakTime fuel uw c.cacheTime = some c.tm

/-- The clock state after the queries `now_ms` at the tick readings `ms`. -/
def queries (st : ClockState) (ms : List Nat) : ClockState :=
  ms.foldl (fun s m => (now_ms s m).2) st

/-- The clock state with the drift correction disabled. -/
def noDrift (st : ClockState) : ClockState := { st with AddRemoveMS := 0 }

/-- The step that `adjustClockSpeed_ppm` hands to `adjustClockSpeed`. -/
def ppmStep (clock_error : ℚ) : Int :=
  if clock_error > 0 then -1 else if clock_error = 0 then 0 else 1

/-- The interval that `adjustClockSpeed_ppm` hands to `adjustClockSpeed`. -/
def ppmStepSeconds (clock_error : ℚ) : Nat :=
  if clock_error > 0 then
    (if toUint16 ((1 / 1000) / clock_error + 1 / 2) > 1000 then 1000
     else toUint16 ((1 / 1000) / clock_error + 1 / 2))
  else if clock_error = 0 then 2
  else
    (if toUint16 ((-(1 / 1000)) / clock_error + 1 / 2) > 1000 then 1000
     else toUint16 ((-(1 / 1000)) / clock_error + 1 / 2))

/-- The rounding of the specification, `round(0.001 / |e|)`, to the nearest
integer. -/
def roundedInterval (e : ℚ) : Nat := ⌊(1 / 1000) / |e| + 1 / 2⌋.toNat

/-- The interval of the specification: `round(0.001 / |e|)` clamped into the
valid range [2, 1000]. -/
def clampedInterval (e : ℚ) : Nat := max 2 (min (roundedInterval e) 1000)

/-- A clock just set to (1000 s, 0 ms) at tick reading 0, before any drift
configuration. -/
def justSet : ClockState :=
  setTime_ms initialState 0 { tv_sec := 1000, tv_msec := 0, raw_millis := 0 }

/-- A set clock in the last second before `sysTime` wraps, with its tick sample
at 0 and a correction of -1 ms due. -/
def lastSecond : ClockState :=
  { sysTime := 4294967295, prevMillis := 0, nextSyncTime := 0,
    Status := timeStatus_t.timeSet, NextClockAdjustS := 0, ClockAdjustStep := 2,
    AddRemoveMS := -1 }

/-! ## Machine arithmetic -/

theorem u32_lt (x : Int) : u32 x < 4294967296 := by
  unfold u32; omega

theorem u32_of_lt (a : Nat) (h : a < 4294967296) : u32 (a : Int) = a := by
  unfold u32; omega

theorem u32_sub_of_le (a b : Nat) (h : b ≤ a) (ha : a < 4294967296) :
    u32 ((a : Int) - b) = a - b := by
  unfold u32; omega

theorem u32_add_u32 (a b : Int) : u32 ((u32 a : Int) + b) = u32 (a + b) := by
  unfold u32; omega

theorem two_pow_ge (uw : Nat) (h : 16 ≤ uw) : 65536 ≤ 2 ^ uw :=
  calc 65536 = 2 ^ 16 := by norm_num
    _ ≤ 2 ^ uw := Nat.pow_le_pow_right (by norm_num) h

/-! ## The calendar tables -/

theorem LEAP_YEAR_eq (y : Nat) : LEAP_YEAR y = isLeapYear (1970 + y) := by
  simp [LEAP_YEAR, isLeapYear]

theorem yearLength_cases (y : Nat) : yearLength y = 365 ∨ yearLength y = 366 := by
  unfold yearLength; split <;> simp

theorem daysBeforeYear_bounds (y : Nat) :
    365 * y ≤ daysBeforeYear y ∧ daysBeforeYear y ≤ 366 * y := by
  induction y with
  | zero => simp [daysBeforeYear]
  | succ n ih =>
    have h := yearLength_cases n
    simp only [daysBeforeYear]
    omega

theorem daysBeforeYear_mono {a b : Nat} (h : a ≤ b) : daysBeforeYear a ≤ daysBeforeYear b := by
  induction b with
  | zero =>
    have : a = 0 := by omega
    subst this; exact le_refl _
  | succ n ih =>
    rcases Nat.lt_or_ge a (n + 1) with h1 | h1
    · have := ih (by omega)
      simp only [daysBeforeYear]; omega
    · have : a = n + 1 := by omega
      subst this; exact le_refl _

theorem daysBeforeYear_succ (y : Nat) :
    daysBeforeYear (y + 1) = daysBeforeYear y + yearLength y := rfl

theorem daysBeforeMonth_succ (year m : Nat) :
    daysBeforeMonth year (m + 1) = daysBeforeMonth year m + monthLen year m := rfl

theorem daysBeforeMonth_zero (year : Nat) : daysBeforeMonth year 0 = 0 := rfl

theorem daysBeforeMonth_mono (year : Nat) {a b : Nat} (h : a ≤ b) :
    daysBeforeMonth year a ≤ daysBeforeMonth year b := by
  induction b with
  | zero =>
    have : a = 0 := by omega
    subst this; exact le_refl _
  | succ n ih =>
    rcases Nat.lt_or_ge a (n + 1) with h1 | h1
    · have := ih (by omega)
      simp only [daysBeforeMonth]; omega
    · have : a = n + 1 := by omega
      subst this; exact le_refl _

theorem daysBeforeMonth_twelve (year : Nat) : daysBeforeMonth year 12 = yearLength year := by
  simp only [daysBeforeMonth, monthLen, yearLength, monthDays, u8]
  cases LEAP_YEAR year <;> simp

theorem monthLen_le (year month : Nat) : monthLen year month ≤ 31 := by
  unfold monthLen
  split
  · split <;> omega
  · rcases Nat.lt_or_ge month 12 with h | h
    · interval_cases month <;> simp [monthDays, u8]
    · rw [List.getD_eq_default _ _ (by simpa [monthDays] using h)]; simp [u8]

theorem monthLen_eq_daysInMonth (year m : Nat) :
    monthLen year m = daysInMonth (1970 + year) (m + 1) := by
  unfold monthLen daysInMonth
  rw [LEAP_YEAR_eq]
  rcases Nat.lt_or_ge m 12 with h | h
  · interval_cases m <;> simp [monthDays, u8]
  · have h1 : m ≠ 1 := by omega
    have h2 : m + 1 ≠ 2 := by omega
    rw [List.getD_eq_default _ _ (by simpa [monthDays] using h),
      List.getD_eq_default _ _ (by simpa [monthDays] using h)]
    simp [h1, h2, u8]

/-! ## The loops of `breakTime` -/

theorem yearLoop_spec (uw time : Nat) (huw : 16 ≤ uw) (ht : time ≤ 49710) :
    ∀ fuel year iters, daysBeforeYear year ≤ time → 137 ≤ fuel + year →
      ∃ y, yearLoop uw time fuel year (daysBeforeYear year) iters
            = some (y, daysBeforeYear (y + 1), iters + (y - year)) ∧
          year ≤ y ∧ y ≤ 136 ∧ daysBeforeYear y ≤ time ∧ time < daysBeforeYear (y + 1) := by
  intro fuel
  induction fuel with
  | zero =>
    intro year iters h1 h2
    have := (daysBeforeYear_bounds year).1
    omega
  | succ n ih =>
    intro year iters h1 h2
    have hb := (daysBeforeYear_bounds year).1
    have hy : year ≤ 136 := by omega
    have hl := yearLength_cases year
    have hp := two_pow_ge uw huw
    have hd : u32 ((daysBeforeYear year : Int) + (if LEAP_YEAR year then 366 else 365))
        = daysBeforeYear (year + 1) := by
      have : ((daysBeforeYear year : Int) + (if LEAP_YEAR year then 366 else 365))
          = ((daysBeforeYear (year + 1) : Nat) : Int) := by
        simp only [daysBeforeYear, yearLength]
        split <;> simp
      rw [this]
      apply u32_of_lt
      simp only [daysBeforeYear]; omega
    have hm : daysBeforeYear (year + 1) % 2 ^ uw = daysBeforeYear (year + 1) := by
      apply Nat.mod_eq_of_lt
      simp only [daysBeforeYear]; omega
    simp only [yearLoop, hd, hm]
    by_cases hc : daysBeforeYear (year + 1) ≤ time
    · have h8 : u8 (year + 1) = year + 1 := by unfold u8; omega
      rw [if_pos hc, h8]
      obtain ⟨y, e, q1, q2, q3, q4⟩ := ih (year + 1) (iters + 1) hc (by omega)
      refine ⟨y, ?_, by omega, q2, q3, q4⟩
      rw [e]
      have : iters + 1 + (y - (year + 1)) = iters + (y - year) := by omega
      rw [this]
    · rw [if_neg hc]
      exact ⟨year, by simp, le_refl _, hy, h1, by omega⟩

theorem monthLoop_spec (year : Nat) :
    ∀ n month time, month + n = 12 →
      time + daysBeforeMonth year month < daysBeforeMonth year 12 →
      ∃ m r, monthLoop year n month time = (m, r) ∧ month ≤ m ∧ m < 12 ∧
        r < monthLen year m ∧ time + daysBeforeMonth year month = daysBeforeMonth year m + r := by
  intro n
  induction n with
  | zero =>
    intro month time h1 h2
    have : month = 12 := by omega
    subst this; omega
  | succ n ih =>
    intro month time h1 h2
    have h12 := daysBeforeMonth_twelve year
    have hl := yearLength_cases year
    have hlen : (if month = 1 then (if LEAP_YEAR year then 29 else 28)
        else u8 (monthDays.getD month 0)) = monthLen year month := rfl
    simp only [monthLoop, hlen]
    by_cases hc : time ≥ monthLen year month
    · have h8 : u8 (month + 1) = month + 1 := by unfold u8; omega
      have hs : u32 ((time : Int) - monthLen year month) = time - monthLen year month :=
        u32_sub_of_le _ _ hc (by omega)
      rw [if_pos hc, h8, hs]
      obtain ⟨m, r, e, q1, q2, q3, q4⟩ :=
        ih (month + 1) (time - monthLen year month) (by omega)
          (by rw [daysBeforeMonth_succ]; omega)
      refine ⟨m, r, e, by omega, q2, q3, ?_⟩
      rw [daysBeforeMonth_succ] at q4; omega
    · rw [if_neg hc]
      exact ⟨month, time, rfl, le_refl _, by omega, by omega, by omega⟩

/-- The searches of `breakTime` split a day count below 2^32 / 86400 into the
days before a year, the days before a month of it, and a day of that month. -/
theorem breakTimeSearch_spec (fuel uw D : Nat) (hf : 137 ≤ fuel) (huw : 16 ≤ uw)
    (hD : D ≤ 49710) :
    ∃ y m r, breakTimeSearch fuel uw D = some (y, m, r) ∧
      y ≤ 136 ∧ m < 12 ∧ r < monthLen y m ∧
      D = daysBeforeYear y + daysBeforeMonth y m + r := by
  obtain ⟨y, ey, _, hy, hlo, hhi⟩ :=
    yearLoop_spec uw D huw hD fuel 0 0 (by simp [daysBeforeYear]) (by omega)
  have hl := yearLength_cases y
  have hdy : u32 ((daysBeforeYear (y + 1) : Int) - (if LEAP_YEAR y then 366 else 365))
      = daysBeforeYear y := by
    have : ((daysBeforeYear (y + 1) : Int) - (if LEAP_YEAR y then 366 else 365))
        = ((daysBeforeYear y : Nat) : Int) := by
      simp only [daysBeforeYear, yearLength]
      split <;> simp
    rw [this]
    exact u32_of_lt _ (by omega)
  have hsub : u32 ((D : Int) - (daysBeforeYear y : Int))
      = D - daysBeforeYear y := u32_sub_of_le _ _ hlo (by omega)
  have h12 := daysBeforeMonth_twelve y
  obtain ⟨m, r, em, _, hm, hr, hsum⟩ :=
    monthLoop_spec y 12 0 (D - daysBeforeYear y) (by omega)
      (by rw [daysBeforeYear_succ] at hhi; rw [daysBeforeMonth_zero]; omega)
  refine ⟨y, m, r, ?_, hy, hm, hr, ?_⟩
  · have e0 : daysBeforeYear 0 = 0 := rfl
    rw [e0] at ey
    simp only [breakTimeSearch, ey, hdy, hsub, em]
  · rw [daysBeforeMonth_zero] at hsum; omega

/-- The fields that `breakTime` fills in from the result of its searches. -/
theorem breakTime_of_search (fuel uw E y m r : Nat) (hE : E < 4294967296)
    (hs : breakTimeSearch fuel uw (E / 86400) = some (y, m, r)) (hm : m < 12) (hr : r < 31) :
    breakTime fuel uw E
      = some { Second := E % 60, Minute := E / 60 % 60, Hour := E / 3600 % 24,
               Wday := (E / 86400 + 4) % 7 + 1, Day := r + 1, Month := m + 1, Year := y } := by
  have hD : E / 3600 / 24 = E / 86400 := by omega
  have hH : E / 60 / 60 = E / 3600 := by omega
  simp only [breakTime, u32_of_lt E hE, hD, hH, hs]
  simp only [u8]
  congr 2 <;> omega

/-- What `breakTime` computes for a 32-bit input: the time of day by division,
and the year, month and day that split the day count `E / 86400`. -/
theorem breakTime_spec (fuel uw E : Nat) (hf : 137 ≤ fuel) (huw : 16 ≤ uw)
    (hE : E < 4294967296) :
    ∃ y m r, breakTime fuel uw E
        = some { Second := E % 60, Minute := E / 60 % 60, Hour := E / 3600 % 24,
                 Wday := (E / 86400 + 4) % 7 + 1, Day := r + 1, Month := m + 1, Year := y } ∧
      y ≤ 136 ∧ m < 12 ∧ r < monthLen y m ∧
      E / 86400 = daysBeforeYear y + daysBeforeMonth y m + r := by
  obtain ⟨y, m, r, es, hy, hm, hr, hsum⟩ :=
    breakTimeSearch_spec fuel uw (E / 86400) hf huw (by omega)
  have hr31 := monthLen_le y m
  exact ⟨y, m, r, breakTime_of_search fuel uw E y m r hE es hm (by omega), hy, hm, hr, hsum⟩

theorem year_unique (y Y a b : Nat) (ha : a < yearLength y) (hb : b < yearLength Y)
    (h : daysBeforeYear y + a = daysBeforeYear Y + b) : y = Y := by
  rcases Nat.lt_trichotomy y Y with h1 | h1 | h1
  · have := daysBeforeYear_mono (show y + 1 ≤ Y by omega)
    rw [daysBeforeYear_succ] at this; omega
  · exact h1
  · have := daysBeforeYear_mono (show Y + 1 ≤ y by omega)
    rw [daysBeforeYear_succ] at this; omega

theorem month_unique (year m M r R : Nat) (hr : r < monthLen year m)
    (hR : R < monthLen year M)
    (h : daysBeforeMonth year m + r = daysBeforeMonth year M + R) : m = M := by
  rcases Nat.lt_trichotomy m M with h1 | h1 | h1
  · have := daysBeforeMonth_mono year (show m + 1 ≤ M by omega)
    rw [daysBeforeMonth_succ] at this; omega
  · exact h1
  · have := daysBeforeMonth_mono year (show M + 1 ≤ m by omega)
    rw [daysBeforeMonth_succ] at this; omega

theorem dayOfYear_lt (year m r : Nat) (hm : m < 12) (hr : r < monthLen year m) :
    daysBeforeMonth year m + r < yearLength year := by
  have := daysBeforeMonth_mono year (show m + 1 ≤ 12 by omega)
  rw [daysBeforeMonth_succ, daysBeforeMonth_twelve] at this
  omega

/-- The result of `breakTime` on an input whose day count is split into a year,
a month and a day of the month. -/
theorem breakTime_of_split (fuel uw E Y m0 d0 : Nat) (hf : 137 ≤ fuel) (huw : 16 ≤ uw)
    (hE : E < 4294967296) (hm0 : m0 < 12) (hd0 : d0 < monthLen Y m0)
    (hsplit : E / 86400 = daysBeforeYear Y + daysBeforeMonth Y m0 + d0) :
    breakTime fuel uw E
      = some { Second := E % 60, Minute := E / 60 % 60, Hour := E / 3600 % 24,
               Wday := (E / 86400 + 4) % 7 + 1, Day := d0 + 1, Month := m0 + 1, Year := Y } := by
  obtain ⟨y, m, r, e, _, hm, hr, hsum⟩ := breakTime_spec fuel uw E hf huw hE
  have h1 := dayOfYear_lt y m r hm hr
  have h2 := dayOfYear_lt Y m0 d0 hm0 hd0
  have hy : y = Y :=
    year_unique y Y (daysBeforeMonth y m + r) (daysBeforeMonth Y m0 + d0) h1 h2 (by omega)
  subst hy
  have hmm : m = m0 := month_unique y m m0 r d0 hr hd0 (by omega)
  subst hmm
  have hrr : r = d0 := by omega
  subst hrr
  exact e

/-! ## The loops of `makeTime` -/

theorem leapSecondsLoop_spec (Y : Nat) (s : Int) :
    leapSecondsLoop Y (u32 s)
      = u32 (s + ((daysBeforeYear Y : Int) - 365 * Y) * 86400) := by
  induction Y with
  | zero =>
    simp only [leapSecondsLoop, List.range_zero, List.foldl_nil, daysBeforeYear]
    refine congrArg u32 ?_
    push_cast
    ring
  | succ n ih =>
    unfold leapSecondsLoop at ih ⊢
    rw [List.range_succ, List.foldl_append, ih]
    simp only [List.foldl_cons, List.foldl_nil, daysBeforeYear_succ, yearLength, SECS_PER_DAY]
    split
    · rw [u32_add_u32]; refine congrArg u32 ?_; push_cast; ring
    · refine congrArg u32 ?_; push_cast; ring

theorem monthLen_eq_term (Year m : Nat) :
    monthLen Year m
      = if m + 1 = 2 ∧ LEAP_YEAR Year = true then 29 else monthDays.getD m 0 := by
  unfold monthLen
  by_cases h1 : m = 1
  · subst h1; cases LEAP_YEAR Year <;> simp [monthDays]
  · have h2 : ¬ (m + 1 = 2) := by omega
    simp only [h1, h2, if_false, false_and]
    rcases Nat.lt_or_ge m 12 with h | h
    · interval_cases m <;> simp [monthDays, u8]
    · rw [List.getD_eq_default _ _ (by simpa [monthDays] using h)]; simp [u8]

theorem monthSecondsLoop_spec (Year m : Nat) (s : Int) :
    monthSecondsLoop Year (m + 1) (u32 s)
      = u32 (s + (daysBeforeMonth Year m : Int) * 86400) := by
  induction m with
  | zero =>
    unfold monthSecondsLoop
    rw [Nat.add_sub_cancel, List.range'_zero, List.foldl_nil]
    refine congrArg u32 ?_
    simp [daysBeforeMonth]
  | succ n ih =>
    unfold monthSecondsLoop at ih ⊢
    simp only [Nat.add_sub_cancel] at ih ⊢
    rw [List.range'_1_concat, List.foldl_append, ih]
    simp only [List.foldl_cons, List.foldl_nil, daysBeforeMonth_succ, SECS_PER_DAY]
    rw [monthLen_eq_term Year n]
    by_cases h : n + 1 = 2 ∧ LEAP_YEAR Year = true
    · have h1 : 1 + n = 2 ∧ LEAP_YEAR Year = true := ⟨by omega, h.2⟩
      rw [if_pos h, if_pos h1, u32_add_u32]; refine congrArg u32 ?_; push_cast; ring
    · have h1 : ¬ (1 + n = 2 ∧ LEAP_YEAR Year = true) := fun q => h ⟨by omega, q.2⟩
      have e1 : 1 + n - 1 = n := by omega
      rw [if_neg h, if_neg h1, u32_add_u32, e1]; refine congrArg u32 ?_; push_cast; ring

/-- What `makeTime` computes when `Month` is at least 1: the seconds of the days
before the year, before the month and before the day, and of the time of day,
reduced modulo 2^32. -/
theorem makeTime_spec (tm : tmElements_t) (hM : 1 ≤ tm.Month) :
    makeTime tm
      = u32 (((daysBeforeYear tm.Year : Int) + daysBeforeMonth tm.Year (tm.Month - 1)
                + ((tm.Day : Int) - 1)) * 86400
              + (tm.Hour : Int) * 3600 + (tm.Minute : Int) * 60 + tm.Second) := by
  obtain ⟨m, hm⟩ : ∃ m, tm.Month = m + 1 := ⟨tm.Month - 1, by omega⟩
  unfold makeTime
  simp only [hm, Nat.add_sub_cancel, leapSecondsLoop_spec, monthSecondsLoop_spec, u32_add_u32,
    SECS_PER_DAY, SECS_PER_HOUR, SECS_PER_MIN]
  refine congrArg u32 ?_; push_cast; ring

/-! ## Composition of the two conversions -/

/-- The seconds since the epoch of a broken-down time, without reduction. -/
theorem makeTime_of_fields (f : tmElements_t) (hM : 1 ≤ f.Month) (hD : 1 ≤ f.Day)
    (hlt : (daysBeforeYear f.Year + daysBeforeMonth f.Year (f.Month - 1) + (f.Day - 1)) * 86400
            + f.Hour * 3600 + f.Minute * 60 + f.Second < 4294967296) :
    makeTime f
      = (daysBeforeYear f.Year + daysBeforeMonth f.Year (f.Month - 1) + (f.Day - 1)) * 86400
          + f.Hour * 3600 + f.Minute * 60 + f.Second := by
  rw [makeTime_spec f hM]
  have : (((daysBeforeYear f.Year : Int) + daysBeforeMonth f.Year (f.Month - 1)
                + ((f.Day : Int) - 1)) * 86400
              + (f.Hour : Int) * 3600 + (f.Minute : Int) * 60 + f.Second)
      = (((daysBeforeYear f.Year + daysBeforeMonth f.Year (f.Month - 1) + (f.Day - 1)) * 86400
          + f.Hour * 3600 + f.Minute * 60 + f.Second : Nat) : Int) := by
    push_cast [Nat.cast_sub hD]
    ring
  rw [this]
  exact u32_of_lt _ hlt

set_option maxRecDepth 100000 in
theorem daysBeforeYear_136 : daysBeforeYear 136 = 49673 := by decide

theorem validFields_day (f : tmElements_t) (hv : validFields f) :
    f.Day - 1 < monthLen f.Year (f.Month - 1) := by
  obtain ⟨h1, _, h3, h4, _⟩ := hv
  rw [monthLen_eq_daysInMonth]
  have : f.Month - 1 + 1 = f.Month := by omega
  rw [this]; omega

/-- A valid broken-down time not after 2106-02-07T06:28:15 lies below 2^32 seconds. -/
theorem limit_bound (f : tmElements_t) (hv : validFields f) (hl : notAfterLimit f) :
    (daysBeforeYear f.Year + daysBeforeMonth f.Year (f.Month - 1) + (f.Day - 1)) * 86400
      + f.Hour * 3600 + f.Minute * 60 + f.Second < 4294967296 := by
  have hd := validFields_day f hv
  obtain ⟨h1, h2, h3, _, h5, h6, h7⟩ := hv
  have hdoy := dayOfYear_lt f.Year (f.Month - 1) (f.Day - 1) (by omega) hd
  rcases hl with hY | ⟨hY, hrest⟩
  · have hmono := daysBeforeYear_mono (show f.Year + 1 ≤ 136 by omega)
    rw [daysBeforeYear_succ, daysBeforeYear_136] at hmono
    omega
  · rw [hY] at hd ⊢
    rw [daysBeforeYear_136]
    rcases hrest with hM | ⟨hM, hrest⟩
    · have e0 : f.Month - 1 = 0 := by omega
      rw [e0] at hd ⊢
      rw [daysBeforeMonth_zero]
      have := monthLen_le 136 0
      omega
    · have e1 : f.Month - 1 = 1 := by omega
      rw [e1]
      have e : daysBeforeMonth 136 1 = 31 := by decide
      rw [e]
      omega

set_option maxRecDepth 100000 in
theorem daysBeforeYear_values :
    daysBeforeYear 2 = 730 ∧ daysBeforeYear 30 = 10957 ∧ daysBeforeYear 130 = 47482 := by
  decide

theorem daysBeforeMonth_values :
    daysBeforeMonth 2 1 = 31 ∧ daysBeforeMonth 2 2 = 60 ∧ monthLen 2 1 = 29 ∧
    daysBeforeMonth 30 1 = 31 ∧ daysBeforeMonth 30 2 = 60 ∧ monthLen 30 1 = 29 ∧
    daysBeforeMonth 130 1 = 31 ∧ daysBeforeMonth 130 2 = 59 ∧ monthLen 130 1 = 28 ∧
    monthLen 2 2 = 31 ∧ monthLen 30 2 = 31 ∧ monthLen 130 2 = 31 := by
  decide

theorem monthLen_february (y : Nat) :
    monthLen y 1 = if isLeapYear (1970 + y) then 29 else 28 := by
  rw [monthLen_eq_daysInMonth]; simp [daysInMonth]

theorem monthLen_march (y : Nat) : monthLen y 2 = 31 := by
  simp [monthLen, monthDays, u8]

theorem daysBeforeMonth_march (y : Nat) :
    daysBeforeMonth y 2 = 31 + monthLen y 1 := by
  simp [daysBeforeMonth, monthLen, monthDays, u8]

/-- The day before a midnight of March 1st is the last day of February of the
same year. -/
theorem breakTime_before_march (fuel uw M y : Nat) (hf : 137 ≤ fuel) (huw : 16 ≤ uw)
    (hM : M < 4294967296) (hmid : M % 86400 = 0)
    (hsplit : M / 86400 = daysBeforeYear y + daysBeforeMonth y 2) :
    ∃ tm, breakTime fuel uw (M - 1) = some tm ∧ tm.Year = y ∧ tm.Month = 2 ∧
      tm.Day = if isLeapYear (1970 + y) then 29 else 28 := by
  have hfeb := monthLen_february y
  have hmar := daysBeforeMonth_march y
  have h28 : 28 ≤ monthLen y 1 := by rw [hfeb]; split <;> omega
  have hb1 : daysBeforeMonth y 1 = 31 := by simp [daysBeforeMonth, monthLen, monthDays, u8]
  have e := breakTime_of_split fuel uw (M - 1) y 1 (monthLen y 1 - 1) hf huw (by omega)
    (by omega) (by omega) (by omega)
  refine ⟨_, e, rfl, rfl, ?_⟩
  simp only []
  rw [← hfeb]; omega

/-! ## Claims on the calendar conversion -/

/-- C1: round trip.  For every unsigned 32-bit epoch-seconds value `E`, on every
platform whose `unsigned` has at least 16 bits, `breakTime` returns (the year
loop ends within 137 evaluations of its condition) and `makeTime` maps the
result back to `E`, with the arithmetic of both functions at the widths of the
code. -/
theorem C1_makeTime_breakTime (fuel uw E : Nat) (hf : 137 ≤ fuel) (huw : 16 ≤ uw)
    (hE : E < 2 ^ 32) :
    ∃ tm, breakTime fuel uw E = some tm ∧ makeTime tm = E := by
  have hE1 : E < 4294967296 := by norm_num at hE; exact hE
  obtain ⟨y, m, r, e, _, hm, hr, hsum⟩ := breakTime_spec fuel uw E hf huw hE1
  refine ⟨_, e, ?_⟩
  have hval : (daysBeforeYear y + daysBeforeMonth y (m + 1 - 1) + (r + 1 - 1)) * 86400
      + E / 3600 % 24 * 3600 + E / 60 % 60 * 60 + E % 60 = E := by
    simp only [Nat.add_sub_cancel]
    omega
  rw [makeTime_of_fields _ (by simp) (by simp) (by simp only []; omega)]
  exact hval

/-- Witness of C1 at the largest 32-bit input, 2106-02-07T06:28:15. -/
theorem C1_makeTime_breakTime_witness :
    137 ≤ 137 ∧ 16 ≤ 16 ∧ 4294967295 < 2 ^ 32 ∧
      ∃ tm, breakTime 137 16 4294967295 = some tm ∧ makeTime tm = 4294967295 :=
  ⟨by decide, by decide, by decide,
    C1_makeTime_breakTime 137 16 4294967295 (by decide) (by decide) (by decide)⟩

/-- C2: `makeTime` is inverted by `breakTime` on valid input.  For every
broken-down time `f` with `Month` in 1..12, `Day` in 1..(length of the month in
year 1970+`Year`), `Hour` < 24, `Minute` < 60, `Second` < 60 that is not after
2106-02-07T06:28:15, `breakTime (makeTime f)` returns a result with the `Year`,
`Month`, `Day`, `Hour`, `Minute` and `Second` of `f`. -/
theorem C2_breakTime_makeTime (fuel uw : Nat) (f : tmElements_t) (hf : 137 ≤ fuel)
    (huw : 16 ≤ uw) (hv : validFields f) (hl : notAfterLimit f) :
    ∃ tm, breakTime fuel uw (makeTime f) = some tm ∧ tm.Year = f.Year ∧ tm.Month = f.Month ∧
      tm.Day = f.Day ∧ tm.Hour = f.Hour ∧ tm.Minute = f.Minute ∧ tm.Second = f.Second := by
  have hlt := limit_bound f hv hl
  have hd := validFields_day f hv
  obtain ⟨h1, h2, h3, _, h5, h6, h7⟩ := hv
  rw [makeTime_of_fields f h1 h3 hlt]
  have e := breakTime_of_split fuel uw _ f.Year (f.Month - 1) (f.Day - 1) hf huw hlt
    (by omega) hd (by omega)
  refine ⟨_, e, rfl, ?_, ?_, ?_, ?_, ?_⟩ <;> simp only [] <;> omega

/-- Witness of C2 at the last valid instant, 2106-02-07T06:28:15. -/
theorem C2_breakTime_makeTime_witness :
    ∃ tm, breakTime 137 16
        (makeTime { Second := 15, Minute := 28, Hour := 6, Wday := 1, Day := 7, Month := 2,
                    Year := 136 }) = some tm ∧
      tm.Year = 136 ∧ tm.Month = 2 ∧ tm.Day = 7 ∧ tm.Hour = 6 ∧ tm.Minute = 28 ∧
        tm.Second = 15 :=
  C2_breakTime_makeTime 137 16
    { Second := 15, Minute := 28, Hour := 6, Wday := 1, Day := 7, Month := 2, Year := 136 }
    (by decide) (by decide) (by simp [validFields, daysInMonth, isLeapYear, monthDays])
    (by simp [notAfterLimit])

/-- C3: field ranges of `breakTime`.  For every unsigned 32-bit input `E` the
result has `Month` in [1,12], `Day` in [1, L] with `L` the length of that month
in year 1970+`Year`, `Hour` in [0,23], `Minute` in [0,59], `Second` in [0,59]
and `Wday` in [1,7]; the month loop ends with `month` below 12, that is through
its `break`, and `Month` and `Day` are its `month + 1` and `time + 1`. -/
theorem C3_breakTime_ranges (fuel uw E : Nat) (hf : 137 ≤ fuel) (huw : 16 ≤ uw)
    (hE : E < 2 ^ 32) :
    ∃ tm year month time,
      breakTime fuel uw E = some tm ∧
      breakTimeSearch fuel uw (u32 E / 60 / 60 / 24) = some (year, month, time) ∧
      month < 12 ∧ tm.Year = year ∧ tm.Month = month + 1 ∧ tm.Day = time + 1 ∧
      1 ≤ tm.Month ∧ tm.Month ≤ 12 ∧
      1 ≤ tm.Day ∧ tm.Day ≤ daysInMonth (1970 + tm.Year) tm.Month ∧
      tm.Hour ≤ 23 ∧ tm.Minute ≤ 59 ∧ tm.Second ≤ 59 ∧ 1 ≤ tm.Wday ∧ tm.Wday ≤ 7 := by
  have hE1 : E < 4294967296 := by norm_num at hE; exact hE
  obtain ⟨y, m, r, es, _, hm, hr, _⟩ :=
    breakTimeSearch_spec fuel uw (E / 86400) hf huw (by omega)
  have hr31 := monthLen_le y m
  have e := breakTime_of_search fuel uw E y m r hE1 es hm (by omega)
  have hD : u32 E / 60 / 60 / 24 = E / 86400 := by rw [u32_of_lt E hE1]; omega
  rw [monthLen_eq_daysInMonth] at hr
  refine ⟨_, y, m, r, e, by rw [hD]; exact es, hm, rfl, rfl, rfl, ?_, ?_, ?_, ?_, ?_, ?_, ?_,
    ?_, ?_⟩ <;> simp only [] <;> omega

/-- Witness of C3 at the largest 32-bit input. -/
theorem C3_breakTime_ranges_witness :
    ∃ tm year month time,
      breakTime 137 16 4294967295 = some tm ∧
      breakTimeSearch 137 16 (u32 4294967295 / 60 / 60 / 24) = some (year, month, time) ∧
      month < 12 ∧ tm.Year = year ∧ tm.Month = month + 1 ∧ tm.Day = time + 1 ∧
      1 ≤ tm.Month ∧ tm.Month ≤ 12 ∧
      1 ≤ tm.Day ∧ tm.Day ≤ daysInMonth (1970 + tm.Year) tm.Month ∧
      tm.Hour ≤ 23 ∧ tm.Minute ≤ 59 ∧ tm.Second ≤ 59 ∧ 1 ≤ tm.Wday ∧ tm.Wday ≤ 7 :=
  C3_breakTime_ranges 137 16 4294967295 (by decide) (by decide) (by decide)

/-- C4: leap-year correctness of `breakTime`.  For every year offset `y` in
0..135 there is a 32-bit `M` that `breakTime` maps to (`Year` = `y`, `Month` =
3, `Day` = 1, 00:00:00), and for every such `M` the result at `M - 1` is
February 29 of year `y` when 1970+`y` is divisible by 4 and (not divisible by
100 or divisible by 400), and February 28 of year `y` otherwise.  Moreover
68256000 is 1972-03-01 and 68255999 is February 29, 951868800 is 2000-03-01
and 951868799 is February 29, 4107542400 is 2100-03-01 and 4107542399 is
February 28. -/
theorem C4_breakTime_leap (fuel uw y : Nat) (hf : 137 ≤ fuel) (huw : 16 ≤ uw)
    (hy : y ≤ 135) :
    (∃ M tm, M < 2 ^ 32 ∧ breakTime fuel uw M = some tm ∧ tm.Year = y ∧ tm.Month = 3 ∧
        tm.Day = 1 ∧ tm.Hour = 0 ∧ tm.Minute = 0 ∧ tm.Second = 0) ∧
    (∀ M tm, M < 2 ^ 32 → breakTime fuel uw M = some tm → tm.Year = y → tm.Month = 3 →
        tm.Day = 1 → tm.Hour = 0 → tm.Minute = 0 → tm.Second = 0 →
        ∃ tm1, breakTime fuel uw (M - 1) = some tm1 ∧ tm1.Year = y ∧ tm1.Month = 2 ∧
          tm1.Day = if isLeapYear (1970 + y) then 29 else 28) ∧
    (breakTime fuel uw 68256000
        = some { Second := 0, Minute := 0, Hour := 0, Wday := 4, Day := 1, Month := 3,
                 Year := 2 } ∧
      breakTime fuel uw 68255999
        = some { Second := 59, Minute := 59, Hour := 23, Wday := 3, Day := 29, Month := 2,
                 Year := 2 } ∧
      breakTime fuel uw 951868800
        = some { Second := 0, Minute := 0, Hour := 0, Wday := 4, Day := 1, Month := 3,
                 Year := 30 } ∧
      breakTime fuel uw 951868799
        = some { Second := 59, Minute := 59, Hour := 23, Wday := 3, Day := 29, Month := 2,
                 Year := 30 } ∧
      breakTime fuel uw 4107542400
        = some { Second := 0, Minute := 0, Hour := 0, Wday := 2, Day := 1, Month := 3,
                 Year := 130 } ∧
      breakTime fuel uw 4107542399
        = some { Second := 59, Minute := 59, Hour := 23, Wday := 1, Day := 28, Month := 2,
                 Year := 130 }) := by
  obtain ⟨v2, v30, v130⟩ := daysBeforeYear_values
  obtain ⟨a1, a2, a3, b1, b2, b3, c1, c2, c3, d1, d2, d3⟩ := daysBeforeMonth_values
  refine ⟨?_, ?_, ?_, ?_, ?_, ?_, ?_, ?_⟩
  · have hmar := monthLen_march y
    have hdoy := dayOfYear_lt y 2 0 (by omega) (by omega)
    have hmono := daysBeforeYear_mono (show y + 1 ≤ 136 by omega)
    rw [daysBeforeYear_succ, daysBeforeYear_136] at hmono
    have e := breakTime_of_split fuel uw ((daysBeforeYear y + daysBeforeMonth y 2) * 86400)
      y 2 0 hf huw (by omega) (by omega) (by omega) (by omega)
    refine ⟨_, _, ?_, e, rfl, rfl, rfl, ?_, ?_, ?_⟩
    · norm_num; omega
    · simp only []; omega
    · simp only []; omega
    · simp only []; omega
  · intro M tm hM e hY hMo hD hH hMi hS
    have hM1 : M < 4294967296 := by norm_num at hM; exact hM
    obtain ⟨y1, m, r, e1, _, _, _, hsum⟩ := breakTime_spec fuel uw M hf huw hM1
    rw [e] at e1
    have e2 := Option.some.inj e1
    subst e2
    simp only [] at hY hMo hD hH hMi hS
    have hm2 : m = 2 := by omega
    have hr0 : r = 0 := by omega
    subst hm2 hr0 hY
    exact breakTime_before_march fuel uw M y1 hf huw hM1 (by omega) (by omega)
  · rw [breakTime_of_split fuel uw 68256000 2 2 0 hf huw (by norm_num) (by omega) (by omega)
      (by rw [v2, a2])]
  · rw [breakTime_of_split fuel uw 68255999 2 1 28 hf huw (by norm_num) (by omega) (by omega)
      (by rw [v2, a1])]
  · rw [breakTime_of_split fuel uw 951868800 30 2 0 hf huw (by norm_num) (by omega) (by omega)
      (by rw [v30, b2])]
  · rw [breakTime_of_split fuel uw 951868799 30 1 28 hf huw (by norm_num) (by omega)
      (by omega) (by rw [v30, b1])]
  · rw [breakTime_of_split fuel uw 4107542400 130 2 0 hf huw (by norm_num) (by omega)
      (by omega) (by rw [v130, c2])]
  · rw [breakTime_of_split fuel uw 4107542399 130 1 27 hf huw (by norm_num) (by omega)
      (by omega) (by rw [v130, c1])]

/-- Witness of C4 for the year 2000 (offset 30). -/
theorem C4_breakTime_leap_witness :
    137 ≤ 137 ∧ 16 ≤ 16 ∧ 30 ≤ 135 ∧
      ∃ M tm, M < 2 ^ 32 ∧ breakTime 137 16 M = some tm ∧ tm.Year = 30 ∧ tm.Month = 3 ∧
        tm.Day = 1 ∧ tm.Hour = 0 ∧ tm.Minute = 0 ∧ tm.Second = 0 :=
  ⟨by decide, by decide, by decide,
    (C4_breakTime_leap 137 16 30 (by decide) (by decide) (by decide)).1⟩

/-- C5: weekday derivation.  For every unsigned 32-bit `E`, `breakTime` returns
a result with `Wday` = ((E div 86400 + 4) mod 7) + 1; the result at 0 has
`Wday` = 5 (Thursday, with 1 = Sunday); and when `E + 86400` is below 2^32 the
weekday at `E + 86400` is the cyclic successor (7 to 1) of the weekday at `E`. -/
theorem C5_breakTime_wday (fuel uw E : Nat) (hf : 137 ≤ fuel) (huw : 16 ≤ uw)
    (hE : E < 2 ^ 32) :
    (∃ tm, breakTime fuel uw E = some tm ∧ tm.Wday = ((E / 86400 + 4) % 7) + 1) ∧
    (∃ tm0, breakTime fuel uw 0 = some tm0 ∧ tm0.Wday = 5) ∧
    (E + 86400 < 2 ^ 32 →
      ∃ tm tm1, breakTime fuel uw E = some tm ∧ breakTime fuel uw (E + 86400) = some tm1 ∧
        tm1.Wday = if tm.Wday = 7 then 1 else tm.Wday + 1) := by
  have hE1 : E < 4294967296 := by norm_num at hE; exact hE
  obtain ⟨y, m, r, e, _⟩ := breakTime_spec fuel uw E hf huw hE1
  obtain ⟨y0, m0, r0, e0, _⟩ := breakTime_spec fuel uw 0 hf huw (by norm_num)
  refine ⟨⟨_, e, rfl⟩, ⟨_, e0, rfl⟩, ?_⟩
  intro hE2
  have hE3 : E + 86400 < 4294967296 := by norm_num at hE2; exact hE2
  obtain ⟨y1, m1, r1, e1, _⟩ := breakTime_spec fuel uw (E + 86400) hf huw hE3
  refine ⟨_, _, e, e1, ?_⟩
  simp only []
  split <;> omega

/-- Witness of C5 at the epoch. -/
theorem C5_breakTime_wday_witness :
    137 ≤ 137 ∧ 16 ≤ 16 ∧ 0 < 2 ^ 32 ∧
      ∃ tm, breakTime 137 16 0 = some tm ∧ tm.Wday = ((0 / 86400 + 4) % 7) + 1 :=
  ⟨by decide, by decide, by decide,
    (C5_breakTime_wday 137 16 0 (by decide) (by decide) (by decide)).1⟩

/-! ## The query `now_ms` -/

theorem now_ms_tv_sec (st : ClockState) (m : Nat) :
    (now_ms st m).1.tv_sec
      = u32 ((st.sysTime : Int) + (u32 ((u32 m : Int) - st.prevMillis) / 1000 : Nat)) := by
  unfold now_ms
  simp only []
  split_ifs <;> simp only [u32] <;> omega

theorem now_ms_tv_msec (st : ClockState) (m : Nat) :
    (now_ms st m).1.tv_msec = u32 ((u32 m : Int) - st.prevMillis) % 1000 := by
  unfold now_ms
  simp only []
  split_ifs <;> rfl

theorem now_ms_sysTime (st : ClockState) (m : Nat) :
    (now_ms st m).2.sysTime = foldedSysTime st m := by
  unfold now_ms foldedSysTime
  simp only []
  split_ifs <;> rfl

theorem now_ms_prevMillis (st : ClockState) (m : Nat) :
    (now_ms st m).2.prevMillis
      = if st.AddRemoveMS ≠ 0 ∧ foldedSysTime st m ≥ st.NextClockAdjustS then
          u32 ((foldedPrevMillis st m : Int) + st.AddRemoveMS)
        else foldedPrevMillis st m := by
  unfold now_ms foldedSysTime foldedPrevMillis
  simp only []
  split_ifs <;> rfl

/-- The folding of whole seconds keeps the reported instant and leaves a tick
sample that is not ahead of the reading and less than two seconds behind it. -/
theorem folded_spec (st : ClockState) (m : Nat) (hm : m < 4294967296)
    (hP : st.prevMillis ≤ m) (ho : st.sysTime + (m - st.prevMillis) / 1000 < 4294967296) :
    foldedSysTime st m * 1000 + (m - foldedPrevMillis st m)
        = st.sysTime * 1000 + (m - st.prevMillis) ∧
      st.prevMillis ≤ foldedPrevMillis st m ∧ foldedPrevMillis st m ≤ m ∧
      m - foldedPrevMillis st m < 2000 := by
  have hm1 : u32 (m : Int) = m := u32_of_lt _ hm
  have he1 : u32 ((m : Int) - st.prevMillis) = m - st.prevMillis :=
    u32_sub_of_le _ _ hP hm
  unfold foldedSysTime foldedPrevMillis
  rw [hm1, he1]
  split_ifs with h
  · have hk : u32 (((m - st.prevMillis) / 1000 : Nat) - 1) = (m - st.prevMillis) / 1000 - 1 := by
      have := u32_sub_of_le ((m - st.prevMillis) / 1000) 1 (by omega) (by omega)
      simpa using this
    rw [hk]
    have hk2 : u32 ((((m - st.prevMillis) / 1000 - 1 : Nat) : Int) * 1000)
        = ((m - st.prevMillis) / 1000 - 1) * 1000 := by
      unfold u32; omega
    rw [hk2]
    have hk3 : u32 ((st.sysTime : Int) + ((m - st.prevMillis) / 1000 - 1 : Nat))
        = st.sysTime + ((m - st.prevMillis) / 1000 - 1) := by
      unfold u32; omega
    have hk4 : u32 ((st.prevMillis : Int) + (((m - st.prevMillis) / 1000 - 1) * 1000 : Nat))
        = st.prevMillis + ((m - st.prevMillis) / 1000 - 1) * 1000 := by
      unfold u32; omega
    rw [hk3, hk4]
    omega
  · omega

/-! ## Claims on the software clock -/

/-- C6: result code of `adjustClockSpeed`.  For every clock state and argument
pair the call returns -2 exactly when `Status` is not `timeSet`; -1 exactly
when `Status` is `timeSet` and (the step is not in {-1, 0, 1} or `StepSeconds`
< 2 or `StepSeconds` > 1000); and 0 exactly when `Status` is `timeSet`, the
step is in {-1, 0, 1} and 2 ≤ `StepSeconds` ≤ 1000.  In the initial state every
call returns -2, and after `setTime_ms` the calls (1, 1), (2000, 1) and (5, 2)
return -1. -/
theorem C6_adjustClockSpeed_code (st : ClockState) (StepSeconds : Nat) (step : Int)
    (m : Nat) (tms : timems) :
    ((adjustClockSpeed st StepSeconds step).1 = -2 ↔ st.Status ≠ timeStatus_t.timeSet) ∧
    ((adjustClockSpeed st StepSeconds step).1 = -1 ↔
      (st.Status = timeStatus_t.timeSet ∧
        ((step ≠ -1 ∧ step ≠ 0 ∧ step ≠ 1) ∨ StepSeconds < 2 ∨ StepSeconds > 1000))) ∧
    ((adjustClockSpeed st StepSeconds step).1 = 0 ↔
      (st.Status = timeStatus_t.timeSet ∧ (step = -1 ∨ step = 0 ∨ step = 1) ∧
        2 ≤ StepSeconds ∧ StepSeconds ≤ 1000)) ∧
    (adjustClockSpeed initialState StepSeconds step).1 = -2 ∧
    (adjustClockSpeed (setTime_ms st m tms) 1 1).1 = -1 ∧
    (adjustClockSpeed (setTime_ms st m tms) 2000 1).1 = -1 ∧
    (adjustClockSpeed (setTime_ms st m tms) 5 2).1 = -1 := by
  refine ⟨?_, ?_, ?_, ?_, ?_, ?_, ?_⟩
  · unfold adjustClockSpeed
    split_ifs <;> simp_all
  · unfold adjustClockSpeed
    split_ifs with h1 h2 h3 h4
    · simp [h1]
    · simp only [not_not] at h1
      simp only [true_iff]
      exact ⟨h1, Or.inl ⟨h2.2.1, h2.1, h2.2.2⟩⟩
    · simp only [not_not] at h1
      simp only [true_iff]
      exact ⟨h1, Or.inr (Or.inl h3)⟩
    · simp only [not_not] at h1
      simp only [true_iff]
      exact ⟨h1, Or.inr (Or.inr h4)⟩
    · simp only [not_not] at h1
      constructor
      · intro h; simp at h
      · rintro ⟨_, h | h | h⟩
        · exact absurd ⟨h.2.1, h.1, h.2.2⟩ h2
        · exact absurd h h3
        · exact absurd h h4
  · unfold adjustClockSpeed
    split_ifs with h1 h2 h3 h4
    · simp [h1]
    · constructor
      · intro h; simp at h
      · rintro ⟨_, h, _⟩
        rcases h with h | h | h
        · exact absurd h h2.2.1
        · exact absurd h h2.1
        · exact absurd h h2.2.2
    · constructor
      · intro h; simp at h
      · rintro ⟨_, _, h, _⟩; omega
    · constructor
      · intro h; simp at h
      · rintro ⟨_, _, _, h⟩; omega
    · simp only [not_not] at h1
      simp only [true_iff]
      refine ⟨h1, ?_, by omega, by omega⟩
      by_contra hc
      apply h2
      refine ⟨fun h => hc (Or.inr (Or.inl h)), fun h => hc (Or.inl h),
        fun h => hc (Or.inr (Or.inr h))⟩
  · simp [adjustClockSpeed, initialState]
  · simp [adjustClockSpeed, setTime_ms]
  · simp [adjustClockSpeed, setTime_ms]
  · simp [adjustClockSpeed, setTime_ms]

/-- C7: state effect of `adjustClockSpeed`.  When the call returns a negative
code the whole clock state is unchanged; when it returns 0 the new state has
`ClockAdjustStep` = `StepSeconds`, `AddRemoveMS` = step, `NextClockAdjustS` =
`sysTime + StepSeconds` modulo 2^32, and `sysTime`, `prevMillis`, `Status` (and
`nextSyncTime`) unchanged. -/
theorem C7_adjustClockSpeed_state (st : ClockState) (StepSeconds : Nat) (step : Int) :
    ((adjustClockSpeed st StepSeconds step).1 < 0 →
      (adjustClockSpeed st StepSeconds step).2 = st) ∧
    ((adjustClockSpeed st StepSeconds step).1 = 0 →
      (adjustClockSpeed st StepSeconds step).2.ClockAdjustStep = StepSeconds ∧
      (adjustClockSpeed st StepSeconds step).2.AddRemoveMS = step ∧
      (adjustClockSpeed st StepSeconds step).2.NextClockAdjustS
        = (st.sysTime + StepSeconds) % 2 ^ 32 ∧
      (adjustClockSpeed st StepSeconds step).2.sysTime = st.sysTime ∧
      (adjustClockSpeed st StepSeconds step).2.prevMillis = st.prevMillis ∧
      (adjustClockSpeed st StepSeconds step).2.Status = st.Status ∧
      (adjustClockSpeed st StepSeconds step).2.nextSyncTime = st.nextSyncTime) := by
  have hu : u32 ((st.sysTime : Int) + StepSeconds) = (st.sysTime + StepSeconds) % 2 ^ 32 := by
    unfold u32; norm_num; omega
  unfold adjustClockSpeed
  split_ifs
  · simp
  · simp
  · simp
  · simp
  · refine ⟨by simp, fun _ => ⟨rfl, rfl, hu, rfl, rfl, rfl, rfl⟩⟩

/-- Witness of C7: a rejected call on the initial state, and an accepted call
(5, -1) on a set clock. -/
theorem C7_adjustClockSpeed_state_witness :
    (adjustClockSpeed initialState 5 1).2 = initialState ∧
    (adjustClockSpeed dueMinusOne 5 (-1)).2.ClockAdjustStep = 5 ∧
    (adjustClockSpeed dueMinusOne 5 (-1)).2.NextClockAdjustS = (0 + 5) % 2 ^ 32 :=
  ⟨(C7_adjustClockSpeed_state initialState 5 1).1 (by decide),
   ((C7_adjustClockSpeed_state dueMinusOne 5 (-1)).2 (by decide)).1,
   ((C7_adjustClockSpeed_state dueMinusOne 5 (-1)).2 (by decide)).2.2.1⟩

/-- C8: discontinuity of set-time.  For every prior clock state, every 32-bit
seconds value `s` and every millisecond value `ms` < 1000, `setTime_ms` of
(`s`, `ms`) at tick reading `m` followed by `now_ms` at the same reading reports
`tv_sec` = `s` and `tv_msec` = `ms`; setting (1000, 0) and querying at once
returns 1000. -/
theorem C8_setTime_then_now (st : ClockState) (m s ms raw : Nat) (hs : s < 2 ^ 32)
    (hms : ms < 1000) :
    (now_ms (setTime_ms st m { tv_sec := s, tv_msec := ms, raw_millis := raw }) m).1.tv_sec = s ∧
    (now_ms (setTime_ms st m { tv_sec := s, tv_msec := ms, raw_millis := raw }) m).1.tv_msec
      = ms ∧
    (now_ms (setTime_ms st m { tv_sec := 1000, tv_msec := 0, raw_millis := raw }) m).1.tv_sec
      = 1000 := by
  have key : ∀ s1 ms1 : Nat, s1 < 4294967296 → ms1 < 1000 →
      (now_ms (setTime_ms st m { tv_sec := s1, tv_msec := ms1, raw_millis := raw }) m).1.tv_sec
        = s1 ∧
      (now_ms (setTime_ms st m { tv_sec := s1, tv_msec := ms1, raw_millis := raw }) m).1.tv_msec
        = ms1 := by
    intro s1 ms1 h1 h2
    rw [now_ms_tv_sec, now_ms_tv_msec]
    simp only [setTime_ms]
    have e : u32 ((u32 (m : Int) : Int) - u32 ((u32 (m : Int) : Int) - (ms1 : Int))) = ms1 := by
      unfold u32; omega
    rw [e]
    constructor
    · unfold u32; omega
    · omega
  norm_num at hs
  exact ⟨(key s ms hs hms).1, (key s ms hs hms).2, (key 1000 0 (by norm_num) (by norm_num)).1⟩

/-- Witness of C8: the clock set to (1000, 0) at tick reading 5000. -/
theorem C8_setTime_then_now_witness :
    (now_ms (setTime_ms dueMinusOne 5000 { tv_sec := 1000, tv_msec := 0, raw_millis := 0 })
      5000).1.tv_sec = 1000 :=
  (C8_setTime_then_now dueMinusOne 5000 1000 0 0 (by decide) (by decide)).1

/-- C9: `adjustTime_ms` at a failing input.  On the initial state a query at tick
reading 600 reports the instant 600 ms; after `adjustTime_ms 500` the query at
the same reading reports 100 ms, not 1100 ms, and after `adjustTime_ms (-500)`
it reports 1100 ms, not 100 ms: the milliseconds of the shift are applied with
the opposite sign, while whole seconds (`adjustTime_ms 1000`) move the instant
forward. -/
theorem C9_adjustTime_ms_failing_input :
    instantMs (now_ms initialState 600).1 = 600 ∧
    instantMs (now_ms (adjustTime_ms initialState 500) 600).1 = 100 ∧
    instantMs (now_ms (adjustTime_ms initialState (-500)) 600).1 = 1100 ∧
    instantMs (now_ms (adjustTime_ms initialState 1000) 600).1 = 1600 := by
  decide

/-- C10 as stated fails: on a set clock with tick sample 0 and a correction of
-1 ms due, the query at tick reading 1 reports (0 s, 1 ms) and moves the tick
sample from 0 to 2^32 - 1; the next query at tick reading 2^32 - 1 then finds 0
elapsed milliseconds and reports (0 s, 0 ms), an earlier instant, although the
counter did not wrap between the readings and no seconds value overflowed. -/
theorem C10_now_ms_monotone_counterexample :
    (dueMinusOne.AddRemoveMS = -1 ∨ dueMinusOne.AddRemoveMS = 0 ∨ dueMinusOne.AddRemoveMS = 1) ∧
    dueMinusOne.prevMillis ≤ 1 ∧ 1 < 4294967295 ∧ 4294967295 < 2 ^ 32 ∧
    secondsNoOverflow dueMinusOne 1 ∧
    secondsNoOverflow (now_ms dueMinusOne 1).2 4294967295 ∧
    (now_ms dueMinusOne 1).1 = { tv_sec := 0, tv_msec := 1, raw_millis := 1 } ∧
    (now_ms dueMinusOne 1).2.prevMillis = 4294967295 ∧
    (now_ms (now_ms dueMinusOne 1).2 4294967295).1
      = { tv_sec := 0, tv_msec := 0, raw_millis := 4294967295 } ∧
    ¬ ((now_ms dueMinusOne 1).1.tv_sec < (now_ms (now_ms dueMinusOne 1).2 4294967295).1.tv_sec ∨
      ((now_ms dueMinusOne 1).1.tv_sec = (now_ms (now_ms dueMinusOne 1).2 4294967295).1.tv_sec ∧
        (now_ms dueMinusOne 1).1.tv_msec
          ≤ (now_ms (now_ms dueMinusOne 1).2 4294967295).1.tv_msec)) := by
  unfold secondsNoOverflow
  decide

/-- C10 (amended): monotonicity of the clock.  For every clock state with
`AddRemoveMS` in {-1, 0, 1} whose tick sample is not ahead of the counter
(`prevMillis` ≤ `m1`), and every pair of tick readings `m1` < `m2` < 2^32 such
that neither query overflows its 32-bit seconds and, when `AddRemoveMS` is -1,
`m2 - prevMillis + 1` is below 2^32, the instant reported at `m2` is not before
the instant reported at `m1` in the lexicographic order of (`tv_sec`,
`tv_msec`), also when the first query applies a drift correction. -/
theorem C10_now_ms_monotone (st : ClockState) (m1 m2 : Nat)
    (ha : st.AddRemoveMS = -1 ∨ st.AddRemoveMS = 0 ∨ st.AddRemoveMS = 1)
    (hP : st.prevMillis ≤ m1) (h12 : m1 < m2) (hm2 : m2 < 2 ^ 32)
    (hwrap : st.AddRemoveMS = -1 → m2 - st.prevMillis + 1 < 2 ^ 32)
    (ho1 : secondsNoOverflow st m1) (ho2 : secondsNoOverflow (now_ms st m1).2 m2) :
    (now_ms st m1).1.tv_sec < (now_ms (now_ms st m1).2 m2).1.tv_sec ∨
      ((now_ms st m1).1.tv_sec = (now_ms (now_ms st m1).2 m2).1.tv_sec ∧
        (now_ms st m1).1.tv_msec ≤ (now_ms (now_ms st m1).2 m2).1.tv_msec) := by
  unfold secondsNoOverflow at ho1 ho2
  norm_num at hm2 hwrap ho1 ho2
  rw [now_ms_tv_sec, now_ms_tv_sec, now_ms_tv_msec, now_ms_tv_msec]
  have hm1 : u32 (m1 : Int) = m1 := u32_of_lt _ (by omega)
  have hm2 : u32 (m2 : Int) = m2 := u32_of_lt _ (by omega)
  rw [hm1] at ho1 ⊢
  rw [hm2] at ho2 ⊢
  have he1 : u32 ((m1 : Int) - st.prevMillis) = m1 - st.prevMillis :=
    u32_sub_of_le _ _ hP (by omega)
  rw [he1] at ho1 ⊢
  obtain ⟨f1, f2, f3, f4⟩ := folded_spec st m1 (by omega) hP ho1
  rw [now_ms_sysTime] at ho2 ⊢
  rw [now_ms_prevMillis] at ho2 ⊢
  generalize foldedSysTime st m1 = S1 at *
  generalize foldedPrevMillis st m1 = P1 at *
  have hA : u32 ((st.sysTime : Int) + ((m1 - st.prevMillis) / 1000 : Nat))
      = st.sysTime + (m1 - st.prevMillis) / 1000 := by
    unfold u32; omega
  rw [hA]
  split_ifs at ho2 ⊢ with hc
  · rcases ha with ha | ha | ha
    · rw [ha] at ho2 ⊢
      have hwr := hwrap ha
      have e2 : u32 ((m2 : Int) - u32 ((P1 : Int) + -1)) = m2 - P1 + 1 := by
        unfold u32; omega
      rw [e2] at ho2 ⊢
      have hB : u32 ((S1 : Int) + ((m2 - P1 + 1) / 1000 : Nat)) = S1 + (m2 - P1 + 1) / 1000 := by
        unfold u32; omega
      rw [hB]
      omega
    · exact absurd ha hc.1
    · rw [ha] at ho2 ⊢
      have e2 : u32 ((m2 : Int) - u32 ((P1 : Int) + 1)) = m2 - P1 - 1 := by
        unfold u32; omega
      rw [e2] at ho2 ⊢
      have hB : u32 ((S1 : Int) + ((m2 - P1 - 1) / 1000 : Nat)) = S1 + (m2 - P1 - 1) / 1000 := by
        unfold u32; omega
      rw [hB]
      omega
  · have e2 : u32 ((m2 : Int) - (P1 : Int)) = m2 - P1 := by
      unfold u32; omega
    rw [e2] at ho2 ⊢
    have hB : u32 ((S1 : Int) + ((m2 - P1) / 1000 : Nat)) = S1 + (m2 - P1) / 1000 := by
      unfold u32; omega
    rw [hB]
    omega

/-- Witness of C10 (amended): a correction of +1 ms is applied by the query at
tick reading 0 and the query at tick reading 1 reports the same instant. -/
theorem C10_now_ms_monotone_witness :
    (now_ms duePlusOne 0).2.prevMillis = 1 ∧
    ((now_ms duePlusOne 0).1.tv_sec < (now_ms (now_ms duePlusOne 0).2 1).1.tv_sec ∨
      ((now_ms duePlusOne 0).1.tv_sec = (now_ms (now_ms duePlusOne 0).2 1).1.tv_sec ∧
        (now_ms duePlusOne 0).1.tv_msec ≤ (now_ms (now_ms duePlusOne 0).2 1).1.tv_msec)) :=
  ⟨by decide,
   C10_now_ms_monotone duePlusOne 0 1 (by decide) (by decide) (by decide) (by decide)
    (by decide) (by unfold secondsNoOverflow; decide) (by unfold secondsNoOverflow; decide)⟩

/-! ## Claims on the year search -/

theorem yearLoop_step (uw time fuel year iters : Nat) (huw : 16 ≤ uw) (ht : time ≤ 49710)
    (h : daysBeforeYear year ≤ time) :
    yearLoop uw time (fuel + 1) year (daysBeforeYear year) iters
      = if daysBeforeYear (year + 1) ≤ time then
          yearLoop uw time fuel (year + 1) (daysBeforeYear (year + 1)) (iters + 1)
        else some (year, daysBeforeYear (year + 1), iters) := by
  have hb := (daysBeforeYear_bounds year).1
  have hl := yearLength_cases year
  have hp := two_pow_ge uw huw
  have hd : u32 ((daysBeforeYear year : Int) + (if LEAP_YEAR year then 366 else 365))
      = daysBeforeYear (year + 1) := by
    have : ((daysBeforeYear year : Int) + (if LEAP_YEAR year then 366 else 365))
        = ((daysBeforeYear (year + 1) : Nat) : Int) := by
      simp only [daysBeforeYear, yearLength]
      split <;> simp
    rw [this]
    apply u32_of_lt
    rw [daysBeforeYear_succ]; omega
  have hm : daysBeforeYear (year + 1) % 2 ^ uw = daysBeforeYear (year + 1) := by
    apply Nat.mod_eq_of_lt
    rw [daysBeforeYear_succ]; omega
  have h8 : u8 (year + 1) = year + 1 := by unfold u8; omega
  simp only [yearLoop, hd, hm, h8]

theorem yearLoop_pass (uw time : Nat) (huw : 16 ≤ uw) (ht : time ≤ 49710) :
    ∀ j fuel, j < fuel → daysBeforeYear j ≤ time →
      yearLoop uw time fuel 0 0 0 = yearLoop uw time (fuel - j) j (daysBeforeYear j) j := by
  intro j
  induction j with
  | zero => intro fuel _ _; rfl
  | succ n ih =>
    intro fuel hf h
    have hmono := daysBeforeYear_mono (show n ≤ n + 1 by omega)
    rw [ih fuel (by omega) (by omega)]
    have e : fuel - n = (fuel - (n + 1)) + 1 := by omega
    rw [e, yearLoop_step uw time _ n n huw ht (by omega), if_pos h]

/-- C20: termination and width safety of the year search of `breakTime`.  For
every unsigned 32-bit input the loop ends with fuel 137, after `y` ≤ 136 runs
of its body, with the final `year` equal to `y` (no wrap of the `uint8_t`); the
loop visits the states (`year` = `j`, `days` = days before year `j`) for `j` ≤
`y`, and the running total after the addition made in each of them, like the
final total, is at most 65535, so that the result with a 16-bit `unsigned` is
that of every wider `unsigned`. -/
theorem C20_yearLoop_terminates (fuel uw E : Nat) (hf : 137 ≤ fuel) (huw : 16 ≤ uw)
    (hE : E < 2 ^ 32) :
    ∃ y d, yearLoop uw (u32 E / 60 / 60 / 24) fuel 0 0 0 = some (y, d, y) ∧
      y ≤ 136 ∧ d ≤ 65535 ∧
      (∀ j, j ≤ y →
        yearLoop uw (u32 E / 60 / 60 / 24) fuel 0 0 0
          = yearLoop uw (u32 E / 60 / 60 / 24) (fuel - j) j (daysBeforeYear j) j ∧
        daysBeforeYear j + yearLength j ≤ 65535) ∧
      yearLoop 16 (u32 E / 60 / 60 / 24) 137 0 0 0 = some (y, d, y) := by
  have hE1 : E < 4294967296 := by norm_num at hE; exact hE
  have hT : u32 E / 60 / 60 / 24 ≤ 49710 := by rw [u32_of_lt E hE1]; omega
  generalize u32 E / 60 / 60 / 24 = T at hT
  obtain ⟨y, ey, _, hy, hlo, hhi⟩ :=
    yearLoop_spec uw T huw hT fuel 0 0 (by simp [daysBeforeYear]) (by omega)
  obtain ⟨y1, ey1, _, _, hlo1, hhi1⟩ :=
    yearLoop_spec 16 T (le_refl _) hT 137 0 0 (by simp [daysBeforeYear]) (by omega)
  have e0 : daysBeforeYear 0 = 0 := rfl
  rw [e0] at ey ey1
  have hyy : y1 = y := by
    rw [daysBeforeYear_succ] at hhi hhi1
    exact year_unique y1 y (T - daysBeforeYear y1) (T - daysBeforeYear y) (by omega) (by omega)
      (by omega)
  subst hyy
  have hl := yearLength_cases y1
  have hb := (daysBeforeYear_bounds y1).2
  refine ⟨y1, daysBeforeYear (y1 + 1), by simpa using ey, hy, ?_, ?_, by simpa using ey1⟩
  · rw [daysBeforeYear_succ]; omega
  · intro j hj
    have hmono := daysBeforeYear_mono hj
    refine ⟨yearLoop_pass uw T huw hT j fuel (by omega) (by omega), ?_⟩
    have hlj := yearLength_cases j
    omega

/-- Witness of C20 at the largest 32-bit input: 136 runs of the loop body. -/
theorem C20_yearLoop_terminates_witness :
    ∃ y d, yearLoop 16 (u32 4294967295 / 60 / 60 / 24) 137 0 0 0 = some (y, d, y) ∧
      y ≤ 136 ∧ d ≤ 65535 :=
  let ⟨y, d, h1, h2, h3, _⟩ :=
    C20_yearLoop_terminates 137 16 4294967295 (by decide) (by decide) (by decide)
  ⟨y, d, h1, h2, h3⟩

/-! ## Claims on the status and the accessors -/

theorem now_ms_Status (st : ClockState) (m : Nat) : (now_ms st m).2.Status = st.Status := by
  unfold now_ms
  simp only []
  split_ifs <;> rfl

theorem adjustClockSpeed_Status (st : ClockState) (s : Nat) (a : Int) :
    (adjustClockSpeed st s a).2.Status = st.Status := by
  unfold adjustClockSpeed
  split_ifs <;> rfl

theorem adjustClockSpeed_ppm_Status (st : ClockState) (e : ℚ) :
    (adjustClockSpeed_ppm st e).2.Status = st.Status := by
  unfold adjustClockSpeed_ppm
  split_ifs <;> exact adjustClockSpeed_Status _ _ _

theorem exec_Status (fuel uw : Nat) (w w1 : World) (c : Call)
    (h : exec fuel uw w c = some w1) :
    w1.clock.Status = if c.isSetTime then timeStatus_t.timeSet else w.clock.Status := by
  cases c with
  | now_ms m =>
    simp only [exec, Option.some.injEq] at h
    subst h; exact now_ms_Status _ _
  | now m =>
    simp only [exec, Option.some.injEq] at h
    subst h; exact now_ms_Status _ _
  | setTime_ms m tms =>
    simp only [exec, Option.some.injEq] at h
    subst h; rfl
  | adjustTime_ms ms =>
    simp only [exec, Option.some.injEq] at h
    subst h; rfl
  | adjustClockSpeed s a =>
    simp only [exec, Option.some.injEq] at h
    subst h; exact adjustClockSpeed_Status _ _ _
  | adjustClockSpeed_ppm e =>
    simp only [exec, Option.some.injEq] at h
    subst h; exact adjustClockSpeed_ppm_Status _ _
  | timeStatus =>
    simp only [exec, Option.some.injEq] at h
    subst h; rfl
  | fieldAt k t =>
    simp only [exec, Option.map_eq_some'] at h
    obtain ⟨r, _, hr⟩ := h
    subst hr; rfl
  | fieldNow k m =>
    simp only [exec, getFieldNow, Option.map_eq_some'] at h
    obtain ⟨r, ⟨r1, _, hr1⟩, hr⟩ := h
    subst hr hr1
    exact now_ms_Status _ _

theorem run_Status (fuel uw : Nat) (calls : List Call) :
    ∀ w w1, run fuel uw w calls = some w1 →
      (w1.clock.Status = timeStatus_t.timeSet ↔
        (w.clock.Status = timeStatus_t.timeSet ∨ ∃ c ∈ calls, c.isSetTime = true)) := by
  induction calls with
  | nil =>
    intro w w1 h
    simp only [run, Option.some.injEq] at h
    subst h; simp
  | cons c cs ih =>
    intro w w1 h
    simp only [run] at h
    cases hc : exec fuel uw w c with
    | none => rw [hc] at h; simp at h
    | some w2 =>
      rw [hc] at h
      rw [ih w2 w1 h, exec_Status fuel uw w w2 c hc]
      by_cases hs : c.isSetTime = true
      · simp [hs]
      · simp [hs]

theorem breakTime_u32 (fuel uw t : Nat) : breakTime fuel uw (u32 t) = breakTime fuel uw t := by
  have : u32 ((u32 (t : Int) : Nat) : Int) = u32 (t : Int) := by unfold u32; omega
  simp only [breakTime, this]

theorem breakTime_total (fuel uw t : Nat) (hf : 137 ≤ fuel) (huw : 16 ≤ uw) :
    ∃ tm, breakTime fuel uw t = some tm := by
  obtain ⟨y, m, r, e, _⟩ := breakTime_spec fuel uw (u32 t) hf huw (u32_lt _)
  rw [breakTime_u32] at e
  exact ⟨_, e⟩

theorem refreshCache_total (fuel uw : Nat) (c : CacheState) (t : Nat) (hf : 137 ≤ fuel)
    (huw : 16 ≤ uw) : ∃ c1, refreshCache fuel uw c t = some c1 := by
  unfold refreshCache
  split_ifs
  · obtain ⟨tm, e⟩ := breakTime_total fuel uw t hf huw
    rw [e]; exact ⟨_, rfl⟩
  · exact ⟨_, rfl⟩

theorem getField_total (fuel uw : Nat) (k : FieldKind) (c : CacheState) (t : Nat)
    (hf : 137 ≤ fuel) (huw : 16 ≤ uw) : ∃ r, getField fuel uw k c t = some r := by
  obtain ⟨c1, e⟩ := refreshCache_total fuel uw c t hf huw
  cases k <;> simp [getField, hour, hourFormat12, isAM, isPM, minute, second, day, weekday,
    month, year, e]

theorem exec_total (fuel uw : Nat) (w : World) (c : Call) (hf : 137 ≤ fuel) (huw : 16 ≤ uw) :
    ∃ w1, exec fuel uw w c = some w1 := by
  cases c with
  | fieldAt k t =>
    obtain ⟨r, e⟩ := getField_total fuel uw k w.cache t hf huw
    simp [exec, e]
  | fieldNow k m =>
    obtain ⟨r, e⟩ := getField_total fuel uw k w.cache (now w.clock m).1 hf huw
    simp [exec, getFieldNow, e]
  | _ => simp [exec]

theorem run_total (fuel uw : Nat) (hf : 137 ≤ fuel) (huw : 16 ≤ uw) (calls : List Call) :
    ∀ w, ∃ w1, run fuel uw w calls = some w1 := by
  induction calls with
  | nil => intro w; exact ⟨w, rfl⟩
  | cons c cs ih =>
    intro w
    obtain ⟨w2, e⟩ := exec_total fuel uw w c hf huw
    obtain ⟨w1, e1⟩ := ih w2
    exact ⟨w1, by simp only [run, e, e1]⟩

/-- C11: status state machine.  The initial `Status` is `timeNotSet`;
`setTime_ms` always leaves `timeSet`; `now_ms`, `adjustTime_ms`,
`adjustClockSpeed`, `adjustClockSpeed_ppm` and every field accessor, with or
without a time argument, leave `Status` unchanged.  Every sequence of calls
runs to a state, and in the state reached from the start `timeStatus()` is
`timeSet` if and only if the sequence contains a call of `setTime_ms`; from a
state with `timeSet` every sequence of calls leads to a state with `timeSet`. -/
theorem C11_status_machine (fuel uw : Nat) (hf : 137 ≤ fuel) (huw : 16 ≤ uw) :
    initialState.Status = timeStatus_t.timeNotSet ∧
    (∀ st m tms, (setTime_ms st m tms).Status = timeStatus_t.timeSet) ∧
    (∀ st m, (now_ms st m).2.Status = st.Status) ∧
    (∀ st ms, (adjustTime_ms st ms).Status = st.Status) ∧
    (∀ st s a, (adjustClockSpeed st s a).2.Status = st.Status) ∧
    (∀ st e, (adjustClockSpeed_ppm st e).2.Status = st.Status) ∧
    (∀ w k t, ∃ w1, exec fuel uw w (Call.fieldAt k t) = some w1 ∧ w1.clock = w.clock) ∧
    (∀ w k m, ∃ w1, exec fuel uw w (Call.fieldNow k m) = some w1 ∧
      w1.clock.Status = w.clock.Status) ∧
    (∀ calls, ∃ w, run fuel uw initialWorld calls = some w ∧
      (timeStatus w.clock = timeStatus_t.timeSet ↔ ∃ c ∈ calls, c.isSetTime = true)) ∧
    (∀ w calls, w.clock.Status = timeStatus_t.timeSet →
      ∃ w1, run fuel uw w calls = some w1 ∧ w1.clock.Status = timeStatus_t.timeSet) := by
  refine ⟨rfl, fun _ _ _ => rfl, now_ms_Status, fun _ _ => rfl, adjustClockSpeed_Status,
    adjustClockSpeed_ppm_Status, ?_, ?_, ?_, ?_⟩
  · intro w k t
    obtain ⟨w1, e⟩ := exec_total fuel uw w (Call.fieldAt k t) hf huw
    refine ⟨w1, e, ?_⟩
    simp only [exec, Option.map_eq_some'] at e
    obtain ⟨r, _, hr⟩ := e
    subst hr; rfl
  · intro w k m
    obtain ⟨w1, e⟩ := exec_total fuel uw w (Call.fieldNow k m) hf huw
    refine ⟨w1, e, ?_⟩
    have := exec_Status fuel uw w w1 _ e
    simpa [Call.isSetTime] using this
  · intro calls
    obtain ⟨w, e⟩ := run_total fuel uw hf huw calls initialWorld
    refine ⟨w, e, ?_⟩
    have := run_Status fuel uw calls initialWorld w e
    unfold timeStatus
    rw [this]
    simp [initialWorld, initialState]
  · intro w calls hw
    obtain ⟨w1, e⟩ := run_total fuel uw hf huw calls w
    refine ⟨w1, e, ?_⟩
    rw [run_Status fuel uw calls w w1 e]
    exact Or.inl hw

/-- Witness of C11: a query, a set-time and an accessor call from the start. -/
theorem C11_status_machine_witness :
    ∃ w, run 137 16 initialWorld
        [Call.now_ms 5, Call.setTime_ms 7 { tv_sec := 1000, tv_msec := 0, raw_millis := 7 },
         Call.fieldNow FieldKind.hour 9] = some w ∧
      (timeStatus w.clock = timeStatus_t.timeSet ↔
        ∃ c ∈ [Call.now_ms 5, Call.setTime_ms 7 { tv_sec := 1000, tv_msec := 0, raw_millis := 7 },
               Call.fieldNow FieldKind.hour 9], c.isSetTime = true) :=
  (C11_status_machine 137 16 (by decide) (by decide)).2.2.2.2.2.2.2.2.1 _

/-- After `refreshCache(t)` on a coherent cache, `tm` is `breakTime(t)`. -/
theorem refreshCache_coherent (fuel uw : Nat) (c : CacheState) (t : Nat) (hf : 137 ≤ fuel)
    (huw : 16 ≤ uw) (hc : coherent fuel uw c) :
    ∃ c1, refreshCache fuel uw c t = some c1 ∧ c1.cacheTime = t ∧
      breakTime fuel uw t = some c1.tm := by
  unfold refreshCache
  split_ifs with h
  · obtain ⟨tm, e⟩ := breakTime_total fuel uw t hf huw
    rw [e]; exact ⟨_, rfl, rfl, rfl⟩
  · simp only [not_not] at h
    subst h
    exact ⟨c, rfl, rfl, hc⟩

theorem hour_value (fuel uw : Nat) (c : CacheState) (t : Nat) (hf : 137 ≤ fuel)
    (huw : 16 ≤ uw) (hc : coherent fuel uw c) (ht : t < 4294967296) :
    ∃ c1, refreshCache fuel uw c t = some c1 ∧ c1.tm.Hour = t / 3600 % 24 := by
  obtain ⟨c1, e, _, hb⟩ := refreshCache_coherent fuel uw c t hf huw hc
  obtain ⟨y, m, r, e1, _⟩ := breakTime_spec fuel uw t hf huw ht
  rw [hb] at e1
  have e2 := Option.some.inj e1
  exact ⟨c1, e, by rw [e2]⟩

/-- C12: the first accessor call at instant 0.  From the initial process state
(`cacheTime` = 0, `tm` zero) `day(0)`, `month(0)` and `weekday(0)` return 0 and
leave the cache as it is, although `breakTime(0)` has `Day` = 1, `Month` = 1
and `Wday` = 5: the initial cache is not `breakTime(cacheTime)`.  The same
values come back from `day()`, `month()` and `weekday()` while `now()` is 0,
as in the first second of an unset clock (tick reading 500). -/
theorem C12_first_query_at_zero :
    day 137 16 initialCache 0 = some (0, initialCache) ∧
    month 137 16 initialCache 0 = some (0, initialCache) ∧
    weekday 137 16 initialCache 0 = some (0, initialCache) ∧
    breakTime 137 16 0
      = some { Second := 0, Minute := 0, Hour := 0, Wday := 5, Day := 1, Month := 1,
               Year := 0 } ∧
    ¬ coherent 137 16 initialCache ∧
    (getFieldNow 137 16 FieldKind.day initialWorld 500).map Prod.fst = some 0 ∧
    (getFieldNow 137 16 FieldKind.month initialWorld 500).map Prod.fst = some 0 ∧
    (getFieldNow 137 16 FieldKind.weekday initialWorld 500).map Prod.fst = some 0 := by
  unfold coherent
  decide

/-- C15: 12-hour format.  For every 32-bit instant `t` and a coherent cache,
`hourFormat12(t)` is 12 when `hour(t)` is 0 or 12 and `hour(t)` mod 12
otherwise; it lies in [1, 12] and is congruent to `hour(t)` modulo 12.  At the
instants 0, 46800, 82800 and 43200, where the hour is 0, 13, 23 and 12, the
result is 12, 1, 11 and 12. -/
theorem C15_hourFormat12 (fuel uw : Nat) (c : CacheState) (t : Nat) (hf : 137 ≤ fuel)
    (huw : 16 ≤ uw) (hc : coherent fuel uw c) (ht : t < 2 ^ 32) :
    (∃ h v c1 c2, hour fuel uw c t = some (h, c1) ∧ hourFormat12 fuel uw c t = some (v, c2) ∧
      v = (if h = 0 ∨ h = 12 then 12 else h % 12) ∧ 1 ≤ v ∧ v ≤ 12 ∧ v % 12 = h % 12) ∧
    (hour fuel uw c 0).map Prod.fst = some 0 ∧
    (hourFormat12 fuel uw c 0).map Prod.fst = some 12 ∧
    (hour fuel uw c 46800).map Prod.fst = some 13 ∧
    (hourFormat12 fuel uw c 46800).map Prod.fst = some 1 ∧
    (hour fuel uw c 82800).map Prod.fst = some 23 ∧
    (hourFormat12 fuel uw c 82800).map Prod.fst = some 11 ∧
    (hour fuel uw c 43200).map Prod.fst = some 12 ∧
    (hourFormat12 fuel uw c 43200).map Prod.fst = some 12 := by
  have ht1 : t < 4294967296 := by norm_num at ht; exact ht
  have key : ∀ s : Nat, s < 4294967296 →
      ∃ c1, hour fuel uw c s = some (s / 3600 % 24, c1) ∧
        hourFormat12 fuel uw c s
          = some (if s / 3600 % 24 = 0 then 12
                  else if s / 3600 % 24 > 12 then s / 3600 % 24 - 12
                  else s / 3600 % 24, c1) := by
    intro s hs
    obtain ⟨c1, e, hh⟩ := hour_value fuel uw c s hf huw hc hs
    refine ⟨c1, ?_, ?_⟩
    · simp only [hour, e, Option.map_some', hh]
    · simp only [hourFormat12, e, Option.map_some', hh]
  refine ⟨?_, ?_, ?_, ?_, ?_, ?_, ?_, ?_, ?_⟩
  · obtain ⟨c1, e1, e2⟩ := key t ht1
    refine ⟨_, _, c1, c1, e1, e2, ?_, ?_, ?_, ?_⟩ <;> split_ifs <;> omega
  · obtain ⟨c1, e1, _⟩ := key 0 (by norm_num)
    rw [e1]; rfl
  · obtain ⟨c1, _, e2⟩ := key 0 (by norm_num)
    rw [e2]; rfl
  · obtain ⟨c1, e1, _⟩ := key 46800 (by norm_num)
    rw [e1]; rfl
  · obtain ⟨c1, _, e2⟩ := key 46800 (by norm_num)
    rw [e2]; rfl
  · obtain ⟨c1, e1, _⟩ := key 82800 (by norm_num)
    rw [e1]; rfl
  · obtain ⟨c1, _, e2⟩ := key 82800 (by norm_num)
    rw [e2]; rfl
  · obtain ⟨c1, e1, _⟩ := key 43200 (by norm_num)
    rw [e1]; rfl
  · obtain ⟨c1, _, e2⟩ := key 43200 (by norm_num)
    rw [e2]; rfl

/-- Witness of C15: the cache filled by a query at instant 3600 is coherent, and
the instant 46800 (13:00) has the 12-hour value 1. -/
theorem C15_hourFormat12_witness :
    coherent 137 16
      { tm := { Second := 0, Minute := 0, Hour := 1, Wday := 5, Day := 1, Month := 1,
                Year := 0 }, cacheTime := 3600 } ∧
    (hourFormat12 137 16
      { tm := { Second := 0, Minute := 0, Hour := 1, Wday := 5, Day := 1, Month := 1,
                Year := 0 }, cacheTime := 3600 } 46800).map Prod.fst = some 1 :=
  ⟨by unfold coherent; decide,
   (C15_hourFormat12 137 16 _ 46800 (by decide) (by decide) (by unfold coherent; decide)
      (by decide)).2.2.2.2.1⟩

/-! ## Claims on the drift configuration by error -/

theorem adjustClockSpeed_ppm_eq (st : ClockState) (e : ℚ) :
    adjustClockSpeed_ppm st e = adjustClockSpeed st (ppmStepSeconds e) (ppmStep e) := by
  unfold adjustClockSpeed_ppm ppmStepSeconds ppmStep
  by_cases h1 : e > 0
  · simp only [h1, if_true]
  · by_cases h2 : e = 0
    · subst h2
      simp only [gt_iff_lt, lt_self_iff_false, if_true, if_false]
    · simp only [h1, h2, if_false]

theorem now_ms_AddRemoveMS (st : ClockState) (m : Nat) :
    (now_ms st m).2.AddRemoveMS = st.AddRemoveMS := by
  unfold now_ms
  simp only []
  split_ifs <;> rfl

theorem now_ms_NextClockAdjustS (st : ClockState) (m : Nat) :
    (now_ms st m).2.NextClockAdjustS
      = if st.AddRemoveMS ≠ 0 ∧ foldedSysTime st m ≥ st.NextClockAdjustS then
          u32 ((st.NextClockAdjustS : Int) + st.ClockAdjustStep)
        else st.NextClockAdjustS := by
  unfold now_ms foldedSysTime
  simp only []
  split_ifs <;> rfl

theorem queries_AddRemoveMS (ms : List Nat) :
    ∀ st, (queries st ms).AddRemoveMS = st.AddRemoveMS := by
  induction ms with
  | nil => intro st; rfl
  | cons m rest ih =>
    intro st
    show (queries (now_ms st m).2 rest).AddRemoveMS = st.AddRemoveMS
    rw [ih, now_ms_AddRemoveMS]

/-- C14: direction chosen by `adjustClockSpeed_ppm`.  For every error `e` the
call is `adjustClockSpeed` with the step -1 when `e` > 0, +1 when `e` < 0, and
exactly `adjustClockSpeed(2, 0)` when `e` = 0.  On a set clock a zero error
returns 0 and leaves `AddRemoveMS` = 0, and after any further queries `now_ms`
keeps `AddRemoveMS` = 0 and leaves `prevMillis` at its value after the folding
of whole seconds and `NextClockAdjustS` as it was: no drift correction. -/
theorem C14_ppm_direction (st : ClockState) (e : ℚ) :
    adjustClockSpeed_ppm st e = adjustClockSpeed st (ppmStepSeconds e) (ppmStep e) ∧
    (e > 0 → ppmStep e = -1) ∧ (e < 0 → ppmStep e = 1) ∧
    (ppmStep 0 = 0 ∧ ppmStepSeconds 0 = 2 ∧
      adjustClockSpeed_ppm st 0 = adjustClockSpeed st 2 0) ∧
    (st.Status = timeStatus_t.timeSet →
      (adjustClockSpeed_ppm st 0).1 = 0 ∧ (adjustClockSpeed_ppm st 0).2.AddRemoveMS = 0 ∧
      ∀ ms m,
        (queries (adjustClockSpeed_ppm st 0).2 ms).AddRemoveMS = 0 ∧
        (now_ms (queries (adjustClockSpeed_ppm st 0).2 ms) m).2.prevMillis
          = foldedPrevMillis (queries (adjustClockSpeed_ppm st 0).2 ms) m ∧
        (now_ms (queries (adjustClockSpeed_ppm st 0).2 ms) m).2.NextClockAdjustS
          = (queries (adjustClockSpeed_ppm st 0).2 ms).NextClockAdjustS) := by
  have h0 : adjustClockSpeed_ppm st 0 = adjustClockSpeed st 2 0 := by
    simp [adjustClockSpeed_ppm]
  refine ⟨adjustClockSpeed_ppm_eq st e, ?_, ?_, ⟨by simp [ppmStep], by simp [ppmStepSeconds], h0⟩,
    ?_⟩
  · intro he; simp [ppmStep, he]
  · intro he
    have h1 : ¬ e > 0 := not_lt.mpr (le_of_lt he)
    have h2 : e ≠ 0 := ne_of_lt he
    simp [ppmStep, h1, h2]
  · intro hs
    have hr : adjustClockSpeed st 2 0
        = (0, { st with ClockAdjustStep := 2,
                        NextClockAdjustS := u32 ((st.sysTime : Int) + (2 : Nat)),
                        AddRemoveMS := 0 }) := by
      simp [adjustClockSpeed, hs]
    rw [h0, hr]
    refine ⟨rfl, rfl, ?_⟩
    intro ms m
    have ha := queries_AddRemoveMS ms
      { st with ClockAdjustStep := 2,
                NextClockAdjustS := u32 ((st.sysTime : Int) + (2 : Nat)),
                AddRemoveMS := 0 }
    simp only [] at ha ⊢
    refine ⟨ha, ?_, ?_⟩
    · rw [now_ms_prevMillis, ha]; simp
    · rw [now_ms_NextClockAdjustS, ha]; simp

/-- Witness of C14: a zero error on a clock that was just set. -/
theorem C14_ppm_direction_witness :
    justSet.Status = timeStatus_t.timeSet ∧
    (adjustClockSpeed_ppm justSet 0).1 = 0 ∧ (adjustClockSpeed_ppm justSet 0).2.AddRemoveMS = 0 :=
  ⟨rfl, ((C14_ppm_direction justSet 0).2.2.2.2 rfl).1, ((C14_ppm_direction justSet 0).2.2.2.2 rfl).2.1⟩

theorem toUint16_of_lt (x : ℚ) (h0 : 0 ≤ x) (h1 : x < 65536) : toUint16 x = ⌊x⌋.toNat := by
  unfold toUint16
  have hf0 : 0 ≤ ⌊x⌋ := Int.floor_nonneg.mpr h0
  have hf1 : ⌊x⌋ < 65536 := Int.floor_lt.mpr (by exact_mod_cast h1)
  rw [Int.emod_eq_of_lt hf0 hf1]

theorem ppmStepSeconds_eq (e : ℚ) (he : e ≠ 0) (hr : (1 / 1000) / |e| + 1 / 2 < 65536) :
    ppmStepSeconds e = min (roundedInterval e) 1000 := by
  have hpos : 0 < |e| := abs_pos.mpr he
  have hx0 : (0 : ℚ) ≤ (1 / 1000) / |e| + 1 / 2 := by positivity
  have hu := toUint16_of_lt _ hx0 hr
  unfold ppmStepSeconds roundedInterval
  by_cases h1 : e > 0
  · have ha : |e| = e := abs_of_pos h1
    rw [ha] at hu
    simp only [h1, if_true, hu, ha]
    split_ifs <;> omega
  · have h2 : e < 0 := lt_of_le_of_ne (not_lt.mp h1) he
    have ha : |e| = -e := abs_of_neg h2
    have hq : (-(1 / 1000 : ℚ)) / e = (1 / 1000) / |e| := by
      rw [ha, div_neg, neg_div]
    rw [hq]
    simp only [h1, he, if_false, hu]
    split_ifs <;> omega

/-- C13 as stated fails: on a clock that is set, the non-zero error 1 gives the
quotient 0.001 / 1 + 0.5 = 0.501, which converts to the interval 0; it is
handed on as 0, not clamped to 2, so that `adjustClockSpeed` returns -1 and
`ClockAdjustStep` stays 0, outside [2, 1000]. -/
theorem C13_ppm_interval_counterexample :
    justSet.Status = timeStatus_t.timeSet ∧ (1 : ℚ) ≠ 0 ∧
    clampedInterval 1 = 2 ∧ ppmStepSeconds 1 = 0 ∧
    adjustClockSpeed_ppm justSet 1 = adjustClockSpeed justSet 0 (-1) ∧
    (adjustClockSpeed_ppm justSet 1).1 = -1 ∧
    (adjustClockSpeed_ppm justSet 1).2.ClockAdjustStep = 0 := by
  have hfl : ⌊((1 / 1000 : ℚ) / 1 + 1 / 2)⌋ = 0 := by
    rw [Int.floor_eq_iff]; norm_num
  have hu : toUint16 ((1 / 1000 : ℚ) / 1 + 1 / 2) = 0 := by
    unfold toUint16; rw [hfl]; rfl
  have hs : ppmStepSeconds 1 = 0 := by
    unfold ppmStepSeconds
    simp only [gt_iff_lt, zero_lt_one, if_true, hu]
    rfl
  have hp : ppmStep 1 = -1 := by simp [ppmStep]
  have hc : clampedInterval 1 = 2 := by
    unfold clampedInterval roundedInterval
    rw [abs_one, hfl]; rfl
  have he := adjustClockSpeed_ppm_eq justSet 1
  rw [hs, hp] at he
  refine ⟨rfl, one_ne_zero, hc, hs, he, ?_, ?_⟩
  · rw [he]; rfl
  · rw [he]; rfl

/-- C13 (amended): error-to-interval conversion in `adjustClockSpeed_ppm`.  For
a clock in status `timeSet` and every non-zero error `e` whose quotient
0.001 / |e| + 0.5 is below 65536 (so that its conversion to `uint16_t` is
defined), the interval handed to `adjustClockSpeed` is round(0.001 / |e|)
clamped from above at 1000, without a lower clamp.  When round(0.001 / |e|) is
at least 2 the call returns 0 and leaves `ClockAdjustStep` equal to the
interval clamped into [2, 1000]; when it is below 2 the call returns -1 and
leaves the clock state unchanged. -/
theorem C13_ppm_interval (st : ClockState) (e : ℚ) (hs : st.Status = timeStatus_t.timeSet)
    (he : e ≠ 0) (hr : (1 / 1000) / |e| + 1 / 2 < 65536) :
    adjustClockSpeed_ppm st e
      = adjustClockSpeed st (min (roundedInterval e) 1000) (ppmStep e) ∧
    (2 ≤ roundedInterval e →
      (adjustClockSpeed_ppm st e).1 = 0 ∧
      (adjustClockSpeed_ppm st e).2.ClockAdjustStep = clampedInterval e ∧
      2 ≤ (adjustClockSpeed_ppm st e).2.ClockAdjustStep ∧
      (adjustClockSpeed_ppm st e).2.ClockAdjustStep ≤ 1000) ∧
    (roundedInterval e < 2 →
      (adjustClockSpeed_ppm st e).1 = -1 ∧ (adjustClockSpeed_ppm st e).2 = st) := by
  have hq := ppmStepSeconds_eq e he hr
  have heq := adjustClockSpeed_ppm_eq st e
  rw [hq] at heq
  have hstep : ppmStep e = -1 ∨ ppmStep e = 1 := by
    unfold ppmStep
    by_cases h1 : e > 0
    · simp [h1]
    · simp [h1, he]
  have hvalid : ¬ (ppmStep e ≠ 0 ∧ ppmStep e ≠ -1 ∧ ppmStep e ≠ 1) := by
    rcases hstep with h | h <;> simp [h]
  refine ⟨heq, ?_, ?_⟩
  · intro h2
    have hlo : ¬ (min (roundedInterval e) 1000 < 2) := by omega
    have hhi : ¬ (min (roundedInterval e) 1000 > 1000) := by omega
    have hc : clampedInterval e = min (roundedInterval e) 1000 := by
      unfold clampedInterval; omega
    rw [heq, hc]
    simp only [adjustClockSpeed, hs, ne_eq, not_true_eq_false, if_false, hvalid, hlo, hhi]
    exact ⟨trivial, trivial, by omega, by omega⟩
  · intro h2
    have hlo : min (roundedInterval e) 1000 < 2 := by omega
    rw [heq]
    simp only [adjustClockSpeed, hs, ne_eq, not_true_eq_false, if_false, hvalid, hlo, if_true]
    exact ⟨trivial, trivial⟩

/-- Witness of C13 (amended): the error 1/50000 (20 ppm) on a clock that was
just set gives the interval 50. -/
theorem C13_ppm_interval_witness :
    (adjustClockSpeed_ppm justSet (1 / 50000)).1 = 0 ∧
    (adjustClockSpeed_ppm justSet (1 / 50000)).2.ClockAdjustStep = clampedInterval (1 / 50000) :=
  have h := (C13_ppm_interval justSet (1 / 50000) rfl (by norm_num)
    (by rw [abs_of_pos (by norm_num)]; norm_num)).2.1
    (by
      have hfl : ⌊((1 / 1000 : ℚ) / |1 / 50000| + 1 / 2)⌋ = 50 := by
        rw [abs_of_pos (by norm_num), Int.floor_eq_iff]; norm_num
      unfold roundedInterval
      rw [hfl]; decide)
  ⟨h.1, h.2.1⟩

/-! ## Claims on the tick integration -/

theorem now_ms_raw_millis (st : ClockState) (m : Nat) : (now_ms st m).1.raw_millis = u32 m := by
  unfold now_ms
  simp only []
  split_ifs <;> rfl

theorem now_ms_instant_noDrift (st : ClockState) (m : Nat) :
    (now_ms st m).1 = (now_ms (noDrift st) m).1 := by
  unfold now_ms noDrift
  simp only []
  split_ifs <;> rfl

theorem now_ms_noDrift_sysTime (st : ClockState) (m : Nat) :
    (now_ms (noDrift st) m).2.sysTime = foldedSysTime st m := by
  rw [now_ms_sysTime]; rfl

theorem now_ms_noDrift_prevMillis (st : ClockState) (m : Nat) :
    (now_ms (noDrift st) m).2.prevMillis = foldedPrevMillis st m := by
  rw [now_ms_prevMillis]
  simp [noDrift, foldedPrevMillis]

theorem now_ms_frame (st : ClockState) (m : Nat) :
    (now_ms st m).2.ClockAdjustStep = st.ClockAdjustStep ∧
    (now_ms st m).2.nextSyncTime = st.nextSyncTime := by
  unfold now_ms
  simp only []
  split_ifs <;> exact ⟨rfl, rfl⟩

/-- C16: tick integration formula.  For every clock state and every 32-bit tick
reading `m`, with `e` = (`m` - `prevMillis`) mod 2^32, `now_ms` reports
`tv_sec` = (`sysTime` + `e` div 1000) mod 2^32, `tv_msec` = `e` mod 1000, which
is below 1000, and `raw_millis` = `m`; when the counter has wrapped since the
sample (`m` < `prevMillis`), `e` is the forward distance `m` + 2^32 -
`prevMillis`. -/
theorem C16_now_ms_formula (st : ClockState) (m : Nat) (hm : m < 2 ^ 32) :
    (now_ms st m).1.tv_sec
      = (st.sysTime + u32 ((m : Int) - st.prevMillis) / 1000) % 2 ^ 32 ∧
    (now_ms st m).1.tv_msec = u32 ((m : Int) - st.prevMillis) % 1000 ∧
    (now_ms st m).1.tv_msec < 1000 ∧
    (now_ms st m).1.raw_millis = m ∧
    (m < st.prevMillis → st.prevMillis < 2 ^ 32 →
      u32 ((m : Int) - st.prevMillis) = m + 2 ^ 32 - st.prevMillis) := by
  have hm1 : m < 4294967296 := by norm_num at hm; exact hm
  have hu : u32 (m : Int) = m := u32_of_lt m hm1
  rw [now_ms_tv_sec, now_ms_tv_msec, now_ms_raw_millis, hu]
  refine ⟨?_, rfl, Nat.mod_lt _ (by norm_num), rfl, ?_⟩
  · generalize u32 ((m : Int) - st.prevMillis) / 1000 = k
    unfold u32
    norm_num
    omega
  · intro h1 h2
    norm_num at h2 ⊢
    unfold u32
    omega

/-- Witness of C16: the counter wrapped between the sample 2^32 - 500 and the
reading 500, so that 1000 ms have passed. -/
theorem C16_now_ms_formula_witness :
    (now_ms { dueMinusOne with prevMillis := 4294966796 } 500).1.tv_sec
      = (0 + u32 ((500 : Int) - 4294966796) / 1000) % 2 ^ 32 ∧
    (now_ms { dueMinusOne with prevMillis := 4294966796 } 500).1.tv_sec = 1 :=
  ⟨(C16_now_ms_formula { dueMinusOne with prevMillis := 4294966796 } 500 (by decide)).1,
   by decide⟩

/-- C18: drift step inside `now_ms`.  With the post-folding values those of the
same query with the drift correction disabled: if `AddRemoveMS` is not 0 and
the post-folding `sysTime` is at least `NextClockAdjustS`, then `prevMillis` is
its post-folding value plus `AddRemoveMS` and `NextClockAdjustS` is increased
by `ClockAdjustStep`, both modulo 2^32 and once; otherwise both keep their
post-folding values.  In either case `sysTime` is the post-folding value,
`ClockAdjustStep`, `AddRemoveMS`, `Status` and `nextSyncTime` are those before
the query, and the instant returned is that of the query without drift
correction. -/
theorem C18_now_ms_drift_step (st : ClockState) (m : Nat) :
    ((st.AddRemoveMS ≠ 0 ∧ (now_ms (noDrift st) m).2.sysTime ≥ st.NextClockAdjustS) →
      (((now_ms st m).2.prevMillis : Int)
          = (((now_ms (noDrift st) m).2.prevMillis : Int) + st.AddRemoveMS) % 2 ^ 32 ∧
        (now_ms st m).2.NextClockAdjustS
          = (st.NextClockAdjustS + st.ClockAdjustStep) % 2 ^ 32)) ∧
    (¬ (st.AddRemoveMS ≠ 0 ∧ (now_ms (noDrift st) m).2.sysTime ≥ st.NextClockAdjustS) →
      ((now_ms st m).2.prevMillis = (now_ms (noDrift st) m).2.prevMillis ∧
        (now_ms st m).2.NextClockAdjustS = st.NextClockAdjustS)) ∧
    (now_ms st m).2.sysTime = (now_ms (noDrift st) m).2.sysTime ∧
    (now_ms st m).2.ClockAdjustStep = st.ClockAdjustStep ∧
    (now_ms st m).2.AddRemoveMS = st.AddRemoveMS ∧
    (now_ms st m).2.Status = st.Status ∧
    (now_ms st m).2.nextSyncTime = st.nextSyncTime ∧
    (now_ms st m).1 = (now_ms (noDrift st) m).1 ∧
    (now_ms (noDrift st) m).2.sysTime = foldedSysTime st m ∧
    (now_ms (noDrift st) m).2.prevMillis = foldedPrevMillis st m := by
  rw [now_ms_noDrift_sysTime, now_ms_noDrift_prevMillis]
  refine ⟨?_, ?_, now_ms_sysTime st m, (now_ms_frame st m).1, now_ms_AddRemoveMS st m,
    now_ms_Status st m, (now_ms_frame st m).2, now_ms_instant_noDrift st m, rfl, rfl⟩
  · intro hdue
    rw [now_ms_prevMillis, now_ms_NextClockAdjustS, if_pos hdue, if_pos hdue]
    constructor
    · unfold u32; norm_num; omega
    · unfold u32; norm_num; omega
  · intro hdue
    rw [now_ms_prevMillis, now_ms_NextClockAdjustS, if_neg hdue, if_neg hdue]
    exact ⟨rfl, rfl⟩

/-- Witness of C18: a due correction of -1 ms at tick sample 0 wraps the sample
to 2^32 - 1 and moves the next correction from 0 to 2. -/
theorem C18_now_ms_drift_step_witness :
    (((now_ms dueMinusOne 1).2.prevMillis : Int)
        = (((now_ms (noDrift dueMinusOne) 1).2.prevMillis : Int) + dueMinusOne.AddRemoveMS)
            % 2 ^ 32 ∧
      (now_ms dueMinusOne 1).2.NextClockAdjustS
        = (dueMinusOne.NextClockAdjustS + dueMinusOne.ClockAdjustStep) % 2 ^ 32) ∧
    (now_ms dueMinusOne 1).2.prevMillis = 4294967295 ∧
    (now_ms dueMinusOne 1).2.NextClockAdjustS = 2 :=
  ⟨(C18_now_ms_drift_step dueMinusOne 1).1 (by decide), by decide, by decide⟩

theorem u32_cast (x : Int) : ((u32 x : Nat) : Int) = x % 4294967296 := by
  unfold u32; omega

theorem u32_congr (a b : Int) (h : a % 4294967296 = b % 4294967296) : u32 a = u32 b := by
  unfold u32; rw [h]

/-- The branch of `now_ms` that folds whole seconds: with `e` ≥ 2000 elapsed
milliseconds, `j` = `e / 1000 - 1` seconds move from the tick sample into
`sysTime`. -/
theorem fold_branch (S P M e : Nat) (he : (e : Int) = ((M : Int) - P) % 4294967296)
    (h : e / 1000 > 1) :
    u32 ((M : Int)
        - u32 ((P : Int) + u32 ((u32 (((e / 1000 : Nat) : Int) - 1) : Int) * 1000)))
      = e - (e / 1000 - 1) * 1000 ∧
    u32 ((u32 ((S : Int) + u32 (((e / 1000 : Nat) : Int) - 1)) : Int) + 1)
      = u32 ((S : Int) + (e / 1000 : Nat)) ∧
    u32 ((u32 ((S : Int) + u32 (((e / 1000 : Nat) : Int) - 1)) : Int) * 1000
        - u32 ((P : Int) + u32 ((u32 (((e / 1000 : Nat) : Int) - 1) : Int) * 1000)))
      = u32 ((S : Int) * 1000 - P) := by
  have hel : e < 4294967296 := by omega
  have hk : u32 (((e / 1000 : Nat) : Int) - 1) = e / 1000 - 1 := by
    unfold u32; omega
  rw [hk]
  have hk2 : u32 (((e / 1000 - 1 : Nat) : Int) * 1000) = (e / 1000 - 1) * 1000 := by
    unfold u32; omega
  rw [hk2]
  have hkk : e / 1000 = (e / 1000 - 1) + 1 := by omega
  generalize e / 1000 - 1 = j at hkk ⊢
  have hj1 : j * 1000 + 1000 ≤ e := by omega
  refine ⟨?_, ?_, ?_⟩
  · have h1 : (((e - j * 1000 : Nat) : Int)) = (e : Int) - j * 1000 := by omega
    have h2 : e - j * 1000 < 4294967296 := by omega
    rw [← u32_of_lt (e - j * 1000) h2, h1]
    apply u32_congr
    rw [u32_cast, he]
    push_cast
    omega
  · apply u32_congr
    rw [u32_cast, hkk]
    push_cast
    omega
  · apply u32_congr
    rw [u32_cast, u32_cast]
    push_cast
    omega

/-- The folding of whole seconds, for every state and reading: less than two
seconds stay between the folded tick sample and the reading, the reported
instant is kept, and `sysTime*1000 - prevMillis` is kept modulo 2^32. -/
theorem fold_facts (st : ClockState) (m : Nat) :
    u32 ((u32 m : Int) - foldedPrevMillis st m) < 2000 ∧
    u32 ((u32 m : Int) - foldedPrevMillis st m) % 1000
      = u32 ((u32 m : Int) - st.prevMillis) % 1000 ∧
    u32 ((foldedSysTime st m : Int) + (u32 ((u32 m : Int) - foldedPrevMillis st m) / 1000 : Nat))
      = u32 ((st.sysTime : Int) + (u32 ((u32 m : Int) - st.prevMillis) / 1000 : Nat)) ∧
    u32 ((foldedSysTime st m : Int) * 1000 - foldedPrevMillis st m)
      = u32 ((st.sysTime : Int) * 1000 - st.prevMillis) := by
  unfold foldedSysTime foldedPrevMillis
  have he := u32_cast ((u32 m : Int) - st.prevMillis)
  generalize u32 ((u32 m : Int) - st.prevMillis) = e at he
  split_ifs with h
  · obtain ⟨b1, b2, b3⟩ := fold_branch st.sysTime st.prevMillis (u32 m) e he h
    rw [b1, b3]
    have h1 : (e - (e / 1000 - 1) * 1000) / 1000 = 1 := by omega
    rw [h1]
    exact ⟨by omega, by omega, b2, rfl⟩
  · have e1 : u32 ((u32 m : Int) - st.prevMillis) = e := by
      apply Int.ofNat_inj.mp
      rw [u32_cast, he]
    rw [e1]
    exact ⟨by omega, rfl, rfl, rfl⟩

theorem i32_of_lt (d : Nat) (h : d < 2147483648) : i32 (d : Int) = d := by
  unfold i32; omega

/-- The interval between two instants with the same base of seconds. -/
theorem ts_interval_same_base (F a b : Nat) :
    (u32 (((u32 ((F : Int) + (b / 1000 : Nat)) : Nat) : Int)
        - (u32 ((F : Int) + (a / 1000 : Nat)) : Nat)) : Int) * 1000
      + (((b % 1000 : Nat) : Int) - ((a % 1000 : Nat) : Int))
    ≡ (b : Int) - a [ZMOD 4294967296] := by
  have h1 : ((u32 (((u32 ((F : Int) + (b / 1000 : Nat)) : Nat) : Int)
        - (u32 ((F : Int) + (a / 1000 : Nat)) : Nat)) : Nat) : Int)
      ≡ ((b / 1000 : Nat) : Int) - (a / 1000 : Nat) [ZMOD 4294967296] := by
    unfold Int.ModEq
    rw [u32_cast, u32_cast, u32_cast]
    omega
  have h2 := (h1.mul_right 1000).add_right (((b % 1000 : Nat) : Int) - ((a % 1000 : Nat) : Int))
  have h3 : (((b / 1000 : Nat) : Int) - (a / 1000 : Nat)) * 1000
      + (((b % 1000 : Nat) : Int) - ((a % 1000 : Nat) : Int)) = (b : Int) - a := by
    omega
  rw [h3] at h2
  exact h2

theorem i32_congr (a b : Int) (h : a ≡ b [ZMOD 4294967296]) : i32 a = i32 b := by
  unfold i32
  have h1 : (a + 2147483648) % 4294967296 = (b + 2147483648) % 4294967296 :=
    h.add_right 2147483648
  rw [h1]

/-- C17: phase preservation.  With the drift correction disabled (`AddRemoveMS`
= 0), for every clock state and every pair of 32-bit tick readings `m1`, `m2`
with `d` = (`m2` - `m1`) mod 2^32 below 2^31, the instants `A` of `now_ms` at
`m1` and `B` of the next `now_ms` at `m2` have `ts_interval(A, B)` = `d`.  The
query keeps `sysTime*1000 - prevMillis` modulo 2^32 and leaves less than 2000
ms between the tick sample and `m1`. -/
theorem C17_phase_preserved (st : ClockState) (m1 m2 : Nat) (ha : st.AddRemoveMS = 0)
    (hm1 : m1 < 2 ^ 32) (hm2 : m2 < 2 ^ 32) (hd : u32 ((m2 : Int) - m1) < 2 ^ 31) :
    ts_interval (now_ms st m1).1 (now_ms (now_ms st m1).2 m2).1 = u32 ((m2 : Int) - m1) ∧
    u32 (((now_ms st m1).2.sysTime : Int) * 1000 - (now_ms st m1).2.prevMillis)
      = u32 ((st.sysTime : Int) * 1000 - st.prevMillis) ∧
    u32 ((m1 : Int) - (now_ms st m1).2.prevMillis) < 2000 := by
  have hm1' : m1 < 4294967296 := by norm_num at hm1; exact hm1
  have hm2' : m2 < 4294967296 := by norm_num at hm2; exact hm2
  have hd' : u32 ((m2 : Int) - m1) < 2147483648 := by norm_num at hd; exact hd
  have hu1 : u32 (m1 : Int) = m1 := u32_of_lt m1 hm1'
  have hu2 : u32 (m2 : Int) = m2 := u32_of_lt m2 hm2'
  have hS : (now_ms st m1).2.sysTime = foldedSysTime st m1 := now_ms_sysTime st m1
  have hP : (now_ms st m1).2.prevMillis = foldedPrevMillis st m1 := by
    rw [now_ms_prevMillis, ha]; simp
  obtain ⟨f1, f2, f3, f4⟩ := fold_facts st m1
  rw [hu1] at f1 f2 f3
  rw [hS, hP]
  refine ⟨?_, f4, f1⟩
  unfold ts_interval
  rw [now_ms_tv_sec, now_ms_tv_sec, now_ms_tv_msec, now_ms_tv_msec, hS, hP, hu1, hu2, ← f3,
    ← f2]
  have hdc := u32_cast ((m2 : Int) - m1)
  have hac := u32_cast ((m1 : Int) - foldedPrevMillis st m1)
  have hbc := u32_cast ((m2 : Int) - foldedPrevMillis st m1)
  generalize foldedSysTime st m1 = F
  generalize foldedPrevMillis st m1 = Q at *
  generalize u32 ((m1 : Int) - Q) = a at *
  generalize u32 ((m2 : Int) - m1) = d at *
  have hb : u32 ((m2 : Int) - Q) = d + a := by
    apply Int.ofNat_inj.mp
    rw [hbc]
    push_cast
    omega
  rw [hb]
  rw [i32_congr _ _ (ts_interval_same_base F a (d + a))]
  have : (((d + a : Nat) : Int) - a) = (d : Int) := by push_cast; ring
  rw [this]
  exact i32_of_lt d hd'

/-- Witness of C17: the counter wraps between the readings 2^32 - 300 and 1200,
and the interval between the two instants is the 1500 ms that passed. -/
theorem C17_phase_preserved_witness :
    ts_interval (now_ms justSet 4294966996).1 (now_ms (now_ms justSet 4294966996).2 1200).1
      = u32 ((1200 : Int) - 4294966996) ∧
    u32 ((1200 : Int) - 4294966996) = 1500 :=
  ⟨(C17_phase_preserved justSet 4294966996 1200 (by decide) (by decide) (by decide)
      (by decide)).1, by decide⟩

/-- The folding of whole seconds leaves a tick sample that is behind the
reading when the tick sample was behind it. -/
theorem folded_lt (st : ClockState) (m : Nat) (hm : m < 4294967296)
    (hP : st.prevMillis < m) : foldedPrevMillis st m < m := by
  have hm1 : u32 (m : Int) = m := u32_of_lt _ hm
  have he1 : u32 ((m : Int) - st.prevMillis) = m - st.prevMillis :=
    u32_sub_of_le _ _ (by omega) hm
  have hc := u32_cast ((m : Int) - st.prevMillis)
  unfold foldedPrevMillis
  rw [hm1, he1] at *
  split_ifs with h
  · obtain ⟨b1, _, _⟩ := fold_branch st.sysTime st.prevMillis m (m - st.prevMillis) hc h
    by_contra hge
    have hfl := u32_lt ((st.prevMillis : Int)
      + u32 ((u32 ((((m - st.prevMillis) / 1000 : Nat) : Int) - 1) : Int) * 1000))
    generalize u32 ((st.prevMillis : Int)
      + u32 ((u32 ((((m - st.prevMillis) / 1000 : Nat) : Int) - 1) : Int) * 1000)) = Q at *
    unfold u32 at b1
    omega
  · exact hP

/-- C19 as stated fails in two ways.  On a set clock in its last second before
`sysTime` wraps (`sysTime` = 2^32 - 1, tick sample 0, a correction of -1 ms
due), the first query at tick reading 999 reports (2^32 - 1 s, 999 ms) and the
second query at the same reading reports (0 s, 0 ms).  On a set clock whose tick
sample equals the reading 0 with a correction of +1 ms due, the first query
reports (0 s, 0 ms) and moves the tick sample to 1, ahead of the counter; the
second query at the same reading finds 2^32 - 1 elapsed milliseconds and
reports (4294967 s, 295 ms). -/
theorem C19_bounded_correction_counterexample :
    ((lastSecond.AddRemoveMS = -1 ∨ lastSecond.AddRemoveMS = 0 ∨ lastSecond.AddRemoveMS = 1) ∧
      lastSecond.prevMillis ≤ 999 ∧
      (now_ms lastSecond 999).1 = { tv_sec := 4294967295, tv_msec := 999, raw_millis := 999 } ∧
      (now_ms (now_ms lastSecond 999).2 999).1
        = { tv_sec := 0, tv_msec := 0, raw_millis := 999 } ∧
      ¬ (|instantMs (now_ms (now_ms lastSecond 999).2 999).1
          - instantMs (now_ms lastSecond 999).1| ≤ 1)) ∧
    ((duePlusOne.AddRemoveMS = -1 ∨ duePlusOne.AddRemoveMS = 0 ∨ duePlusOne.AddRemoveMS = 1) ∧
      duePlusOne.prevMillis ≤ 0 ∧
      (now_ms duePlusOne 0).1 = { tv_sec := 0, tv_msec := 0, raw_millis := 0 } ∧
      (now_ms duePlusOne 0).2.prevMillis = 1 ∧
      (now_ms (now_ms duePlusOne 0).2 0).1
        = { tv_sec := 4294967, tv_msec := 295, raw_millis := 0 } ∧
      ¬ (|instantMs (now_ms (now_ms duePlusOne 0).2 0).1
          - instantMs (now_ms duePlusOne 0).1| ≤ 1)) := by
  decide

/-- C19 (amended): bounded-size correction.  For every clock state with
`AddRemoveMS` in {-1, 0, 1} whose tick sample is not ahead of the 32-bit tick
reading `m` (`prevMillis` ≤ `m`) and, when `AddRemoveMS` is +1, is behind it
(`prevMillis` < `m`), and such that neither query overflows its 32-bit seconds,
two successive `now_ms` queries that read the same `m` report instants
(`tv_sec*1000 + tv_msec`) that differ by at most 1 ms in absolute value,
whether or not the first query applied a drift correction. -/
theorem C19_bounded_correction (st : ClockState) (m : Nat)
    (ha : st.AddRemoveMS = -1 ∨ st.AddRemoveMS = 0 ∨ st.AddRemoveMS = 1)
    (hP : st.prevMillis ≤ m) (hm : m < 2 ^ 32)
    (hplus : st.AddRemoveMS = 1 → st.prevMillis < m)
    (ho1 : secondsNoOverflow st m) (ho2 : secondsNoOverflow (now_ms st m).2 m) :
    |instantMs (now_ms (now_ms st m).2 m).1 - instantMs (now_ms st m).1| ≤ 1 := by
  unfold secondsNoOverflow at ho1 ho2
  norm_num at hm ho1 ho2
  unfold instantMs
  rw [now_ms_tv_sec, now_ms_tv_sec, now_ms_tv_msec, now_ms_tv_msec]
  have hm1 : u32 (m : Int) = m := u32_of_lt _ hm
  rw [hm1] at ho1 ho2 ⊢
  have he1 : u32 ((m : Int) - st.prevMillis) = m - st.prevMillis :=
    u32_sub_of_le _ _ hP hm
  rw [he1] at ho1 ⊢
  obtain ⟨f1, f2, f3, f4⟩ := folded_spec st m hm hP ho1
  have f5 : st.prevMillis < m → foldedPrevMillis st m < m := folded_lt st m hm
  rw [now_ms_sysTime] at ho2 ⊢
  rw [now_ms_prevMillis] at ho2 ⊢
  generalize foldedSysTime st m = S1 at *
  generalize foldedPrevMillis st m = P1 at *
  have hA : u32 ((st.sysTime : Int) + ((m - st.prevMillis) / 1000 : Nat))
      = st.sysTime + (m - st.prevMillis) / 1000 := by
    unfold u32; omega
  rw [hA]
  rw [abs_le]
  split_ifs at ho2 ⊢ with hc
  · rcases ha with ha | ha | ha
    · rw [ha] at ho2 ⊢
      have e2 : u32 ((m : Int) - u32 ((P1 : Int) + -1)) = m - P1 + 1 := by
        unfold u32; omega
      rw [e2] at ho2 ⊢
      have hB : u32 ((S1 : Int) + ((m - P1 + 1) / 1000 : Nat)) = S1 + (m - P1 + 1) / 1000 := by
        unfold u32; omega
      rw [hB]
      omega
    · exact absurd ha hc.1
    · rw [ha] at ho2 ⊢
      have hlt := f5 (hplus ha)
      have e2 : u32 ((m : Int) - u32 ((P1 : Int) + 1)) = m - P1 - 1 := by
        unfold u32; omega
      rw [e2] at ho2 ⊢
      have hB : u32 ((S1 : Int) + ((m - P1 - 1) / 1000 : Nat)) = S1 + (m - P1 - 1) / 1000 := by
        unfold u32; omega
      rw [hB]
      omega
  · have e2 : u32 ((m : Int) - (P1 : Int)) = m - P1 := by
      unfold u32; omega
    rw [e2] at ho2 ⊢
    have hB : u32 ((S1 : Int) + ((m - P1) / 1000 : Nat)) = S1 + (m - P1) / 1000 := by
      unfold u32; omega
    rw [hB]
    omega

/-- Witness of C19 (amended): a correction of -1 ms is applied by the first
query at tick reading 5 and the second query reports an instant 1 ms later. -/
theorem C19_bounded_correction_witness :
    (now_ms dueMinusOne 5).2.prevMillis = 4294967295 ∧
    |instantMs (now_ms (now_ms dueMinusOne 5).2 5).1 - instantMs (now_ms dueMinusOne 5).1| ≤ 1 :=
  ⟨by decide,
   C19_bounded_correction dueMinusOne 5 (by decide) (by decide) (by decide) (by decide)
    (by unfold secondsNoOverflow; decide) (by unfold secondsNoOverflow; decide)⟩

end ArduinoClock
